import Mathlib

/-!
# Open-addressing hash table (`hash_table.c`)

A shallow embedding of the string-to-string hash table of `src/hash_table.c`
and the properties of its operations.

Modelling conventions.

* A C string is the list of its bytes before the terminating NUL.
* A bucket `ht_item*` is one of three pointers: `NULL`, the address of the
  shared `HT_DELETED_ITEM`, or a live heap item.  These are the three
  constructors of `Slot`.
* `int` fields that can become negative (`count`, `base_size` arguments) are
  `Int`; `size` is never negative and is `Nat`, like the hash values and bucket
  indices of the exact versions below.  Integer overflow of `int` in the table
  operations is not modelled: it needs more than `2^31 / 100` stored entries
  or loop iterations.
* `ht_hash` and `ht_get_hash` compute in exact arithmetic on natural numbers:
  a byte stands for the value of `char` and `pow` of `math.h` is exponentiation.
  `ht_hash_long` and `ht_get_hash_int` follow the arithmetic of the C (signed
  `char`, `pow` in double precision, `long` and `int` with truncating `%`) and
  are undefined where the C is.  The two agree for ASCII keys of at most eight
  bytes (`ht_hash_long_eq_ht_hash`, `ht_get_hash_int_eq_ht_get_hash`); the table
  operations use the exact versions.
* Reading `ht->items[index]` with `index` outside the allocation is undefined
  behaviour in C; the model stops there with `Outcome.out_of_bounds`.
* The probe loops `while (item != NULL)` have no bound in the source.  They are
  unrolled with a `fuel` argument, one unit per probe attempt and per nested
  `ht_insert`/`ht_resize` call; `Outcome.out_of_fuel` means the loop is still
  running after `fuel` rounds.
-/

namespace CHashTable

/-- Bytes of a C string, without the terminating NUL. -/
abbrev CString := List Nat

/-- Result of running an operation: a value, an access outside the bucket
array (undefined behaviour in C), or still running when the fuel ran out. -/
inductive Outcome (α : Type) where
  | ok (a : α)
  | out_of_bounds
  | out_of_fuel
deriving DecidableEq, Repr

/-- The struct `ht_item`: an owned key and value. -/
structure ht_item where
  key : CString
  value : CString
deriving DecidableEq, Repr

/-- One bucket of `ht->items`: `NULL`, `&HT_DELETED_ITEM`, or a live item. -/
inductive Slot where
  | null
  | deleted
  | item (it : ht_item)
deriving DecidableEq, Repr

/-- The struct `ht_hash_table`.  `items` is the allocation made by `calloc`,
so its length is the number of buckets that may be read. -/
structure ht_hash_table where
  size : Nat
  base_size : Int
  count : Int
  items : List Slot
deriving DecidableEq, Repr

def HT_PRIME_1 : Nat := 151
def HT_PRIME_2 : Nat := 163
def HT_INITIAL_BASE_SIZE : Int := 53

/-- Modelled from the spec: `prime.c` (`is_prime`) is not among the sources.
Three-valued result: `-1` (undefined) for `x < 2`, `0` for a composite,
`1` for a prime, found by trial division by every `d` with `d * d ≤ x`. -/
def is_prime (x : Nat) : Int :=
  if x < 2 then -1
  else if (List.range x).any (fun d => decide (2 ≤ d ∧ d * d ≤ x ∧ x % d = 0)) then 0
  else 1

/-- Increment-and-test loop of `next_prime`, at most `fuel` increments. -/
def next_prime_loop : Nat → Nat → Nat
  | 0, x => x
  | fuel + 1, x => if is_prime x = 1 then x else next_prime_loop fuel (x + 1)

/-- Modelled from the spec: `prime.c` (`next_prime`) is not among the sources.
The smallest prime `≥ x`, by incrementing and testing until `is_prime`
succeeds.  There is a prime in `(n, 2n]`, so `n + 2` increments are enough. -/
def next_prime (x : Int) : Nat :=
  next_prime_loop (x.toNat + 2) x.toNat

/-- `ht_new_item`: a fresh item holding copies of `k` and `v`. -/
def ht_new_item (k v : CString) : ht_item :=
  { key := k, value := v }

/-- `ht_new_sized`: `size` is the next prime, all buckets `NULL`, `count` 0. -/
def ht_new_sized (base_size : Int) : ht_hash_table :=
  { base_size := base_size
    size := next_prime base_size
    count := 0
    items := List.replicate (next_prime base_size) Slot.null }

/-- `ht_new`. -/
def ht_new : ht_hash_table :=
  ht_new_sized HT_INITIAL_BASE_SIZE

/-- The `for` loop of `ht_hash`: `rest` are the bytes `s[i], s[i+1], ...`. -/
def ht_hash_loop (a m len_s : Nat) : List Nat → Nat → Nat → Nat
  | [], _, hash => hash
  | c :: rest, i, hash =>
    ht_hash_loop a m len_s rest (i + 1) ((hash + a ^ (len_s - (i + 1)) * c) % m)

/-- `ht_hash(s, a, m)`. -/
def ht_hash (s : CString) (a m : Nat) : Nat :=
  ht_hash_loop a m s.length s 0 0

/-- `ht_get_hash(s, num_buckets, attempt)`.  As in the source, `%` binds
tighter than `+`: only the second summand is reduced. -/
def ht_get_hash (s : CString) (num_buckets attempt : Nat) : Nat :=
  let hash_a := ht_hash s HT_PRIME_1 num_buckets
  let hash_b := ht_hash s HT_PRIME_2 num_buckets
  hash_a + (attempt * (hash_b + 1)) % num_buckets

/-- The probe loop of `ht_search` from attempt `i` on: read the bucket at the
`i`-th probe index; `NULL` ends the search, a live item with the key is the
answer, anything else moves to the next attempt. -/
def ht_search_loop : Nat → ht_hash_table → CString → Nat → Outcome (Option CString)
  | 0, _, _, _ => Outcome.out_of_fuel
  | fuel + 1, ht, key, i =>
    match ht.items[ht_get_hash key ht.size i]? with
    | none => Outcome.out_of_bounds
    | some Slot.null => Outcome.ok none
    | some Slot.deleted => ht_search_loop fuel ht key (i + 1)
    | some (Slot.item item) =>
      if item.key = key then Outcome.ok (some item.value)
      else ht_search_loop fuel ht key (i + 1)

/-- `ht_search(ht, key)`: `some v` for the value found, `none` for `NULL`. -/
def ht_search (fuel : Nat) (ht : ht_hash_table) (key : CString) : Outcome (Option CString) :=
  ht_search_loop fuel ht key 0

/-- The placement loop of `ht_insert` from attempt `i` on.  `item` is the new
item and `key` the argument of `ht_insert`; as in the source, the test on a
live bucket compares `item.key` with `key`, not the key stored in the bucket. -/
def ht_insert_loop : Nat → ht_hash_table → ht_item → CString → Nat → Outcome ht_hash_table
  | 0, _, _, _, _ => Outcome.out_of_fuel
  | fuel + 1, ht, item, key, i =>
    let index := ht_get_hash item.key ht.size i
    match ht.items[index]? with
    | none => Outcome.out_of_bounds
    | some Slot.null =>
      Outcome.ok { ht with items := ht.items.set index (Slot.item item), count := ht.count + 1 }
    | some Slot.deleted => ht_insert_loop fuel ht item key (i + 1)
    | some (Slot.item _) =>
      if item.key = key then
        Outcome.ok { ht with items := ht.items.set index (Slot.item item) }
      else ht_insert_loop fuel ht item key (i + 1)

/-- The `for` loop of `ht_resize`: every live item of the old bucket array is
inserted into `new_ht` with `ins`. -/
def ht_rehash (ins : ht_hash_table → CString → CString → Outcome ht_hash_table) :
    List Slot → ht_hash_table → Outcome ht_hash_table
  | [], new_ht => Outcome.ok new_ht
  | Slot.item item :: rest, new_ht =>
    match ins new_ht item.key item.value with
    | Outcome.ok new_ht1 => ht_rehash ins rest new_ht1
    | Outcome.out_of_bounds => Outcome.out_of_bounds
    | Outcome.out_of_fuel => Outcome.out_of_fuel
  | _ :: rest, new_ht => ht_rehash ins rest new_ht

/-- Body of `ht_resize(ht, base_size)`, with the recursive `ht_insert` passed
in as `ins`.  After the rehash `new_ht` is given the old `base_size` and
`count`, which are then copied back: `ht` keeps both and takes only `size`
and `items` of `new_ht`. -/
def ht_resize_with (ins : ht_hash_table → CString → CString → Outcome ht_hash_table)
    (ht : ht_hash_table) (base_size : Int) : Outcome ht_hash_table :=
  if base_size < HT_INITIAL_BASE_SIZE then Outcome.ok ht
  else
    match ht_rehash ins ht.items (ht_new_sized base_size) with
    | Outcome.ok new_ht =>
      let new_ht1 := { new_ht with base_size := ht.base_size, count := ht.count }
      Outcome.ok { ht with
        base_size := new_ht1.base_size
        count := new_ht1.count
        size := new_ht1.size
        items := new_ht1.items }
    | Outcome.out_of_bounds => Outcome.out_of_bounds
    | Outcome.out_of_fuel => Outcome.out_of_fuel

/-- `ht_insert(ht, key, value)`: grow when the load is above 70, then place.
The call `ht_resize_up(ht)` is `ht_resize(ht, ht->base_size * 2)`; the inserts
it makes into the new table run with one unit of fuel less. -/
def ht_insert : Nat → ht_hash_table → CString → CString → Outcome ht_hash_table
  | 0, _, _, _ => Outcome.out_of_fuel
  | fuel + 1, ht, key, value =>
    let load := Int.tdiv (ht.count * 100) ht.size
    match (if load > 70 then ht_resize_with (ht_insert fuel) ht (ht.base_size * 2)
           else Outcome.ok ht) with
    | Outcome.ok ht1 => ht_insert_loop (fuel + 1) ht1 (ht_new_item key value) key 0
    | Outcome.out_of_bounds => Outcome.out_of_bounds
    | Outcome.out_of_fuel => Outcome.out_of_fuel

/-- `ht_resize(ht, base_size)`. -/
def ht_resize (fuel : Nat) (ht : ht_hash_table) (base_size : Int) : Outcome ht_hash_table :=
  ht_resize_with (ht_insert fuel) ht base_size

/-- `ht_resize_up(ht)`. -/
def ht_resize_up (fuel : Nat) (ht : ht_hash_table) : Outcome ht_hash_table :=
  ht_resize fuel ht (ht.base_size * 2)

/-- `ht_resize_down(ht)`. -/
def ht_resize_down (fuel : Nat) (ht : ht_hash_table) : Outcome ht_hash_table :=
  ht_resize fuel ht (Int.tdiv ht.base_size 2)

/-- The probe loop of `ht_delete` from attempt `i` on.  A matching live item
becomes `&HT_DELETED_ITEM` and the loop goes on; only `NULL` ends it. -/
def ht_delete_loop : Nat → ht_hash_table → CString → Nat → Outcome ht_hash_table
  | 0, _, _, _ => Outcome.out_of_fuel
  | fuel + 1, ht, key, i =>
    let index := ht_get_hash key ht.size i
    match ht.items[index]? with
    | none => Outcome.out_of_bounds
    | some Slot.null => Outcome.ok ht
    | some Slot.deleted => ht_delete_loop fuel ht key (i + 1)
    | some (Slot.item item) =>
      if item.key = key then
        ht_delete_loop fuel { ht with items := ht.items.set index Slot.deleted } key (i + 1)
      else ht_delete_loop fuel ht key (i + 1)

/-- `ht_delete(ht, key)`: shrink when the load is below 10, tombstone the
matches, then decrement `count`. -/
def ht_delete (fuel : Nat) (ht : ht_hash_table) (key : CString) : Outcome ht_hash_table :=
  let load := Int.tdiv (ht.count * 100) ht.size
  match (if load < 10 then ht_resize_down fuel ht else Outcome.ok ht) with
  | Outcome.ok ht1 =>
    match ht_delete_loop fuel ht1 key 0 with
    | Outcome.ok ht2 => Outcome.ok { ht2 with count := ht2.count - 1 }
    | Outcome.out_of_bounds => Outcome.out_of_bounds
    | Outcome.out_of_fuel => Outcome.out_of_fuel
  | Outcome.out_of_bounds => Outcome.out_of_bounds
  | Outcome.out_of_fuel => Outcome.out_of_fuel

/-- A call of the public interface that changes the table. -/
inductive Call where
  | insert (key value : CString)
  | delete (key : CString)
deriving DecidableEq, Repr

/-- Run a sequence of calls, each with the given fuel. -/
def run_calls (fuel : Nat) : List Call → ht_hash_table → Outcome ht_hash_table
  | [], ht => Outcome.ok ht
  | Call.insert k v :: rest, ht =>
    match ht_insert fuel ht k v with
    | Outcome.ok ht1 => run_calls fuel rest ht1
    | Outcome.out_of_bounds => Outcome.out_of_bounds
    | Outcome.out_of_fuel => Outcome.out_of_fuel
  | Call.delete k :: rest, ht =>
    match ht_delete fuel ht k with
    | Outcome.ok ht1 => run_calls fuel rest ht1
    | Outcome.out_of_bounds => Outcome.out_of_bounds
    | Outcome.out_of_fuel => Outcome.out_of_fuel

/-- Tables produced from `ht_new()` by `ht_insert`/`ht_delete` calls that
return. -/
inductive Reachable : ht_hash_table → Prop where
  | new : Reachable ht_new
  | insert {ht ht1 : ht_hash_table} (fuel : Nat) (key value : CString) :
      Reachable ht → ht_insert fuel ht key value = Outcome.ok ht1 → Reachable ht1
  | delete {ht ht1 : ht_hash_table} (fuel : Nat) (key : CString) :
      Reachable ht → ht_delete fuel ht key = Outcome.ok ht1 → Reachable ht1

/-- The bucket array has `size` entries. -/
def well_formed (t : ht_hash_table) : Prop :=
  t.items.length = t.size

/-- The probe index as the spec writes it:
`(hash_a + attempt * (hash_b + 1)) mod num_buckets`. -/
def probe_reference (s : CString) (num_buckets attempt : Nat) : Nat :=
  (ht_hash s HT_PRIME_1 num_buckets + attempt * (ht_hash s HT_PRIME_2 num_buckets + 1))
    % num_buckets

/-- The number the spec reads a string as: byte `i` weighted by
`a ^ (len - 1 - i)`, summed over all positions `i`. -/
def positional_value (s : CString) (a : Nat) : Nat :=
  ((List.range s.length).map (fun i => s.getD i 0 * a ^ (s.length - 1 - i))).sum

/-- The hash as the spec defines it: the positional value modulo `m`. -/
def hash_reference (s : CString) (a m : Nat) : Nat :=
  positional_value s a % m

/-- The sum of the terms `a ^ (len_s - (i + 1)) * s[i]` that the loop of
`ht_hash` still has to add when it stands at position `i` with bytes `rest`. -/
def ht_hash_terms (a len_s : Nat) : List Nat → Nat → Nat
  | [], _ => 0
  | c :: rest, i => a ^ (len_s - (i + 1)) * c + ht_hash_terms a len_s rest (i + 1)

/-- Number of live buckets (neither `NULL` nor `&HT_DELETED_ITEM`). -/
def occupied (items : List Slot) : Nat :=
  items.countP (fun s => match s with
    | Slot.item _ => true
    | _ => false)

/-- `p` is the smallest prime that is at least `b`. -/
def is_smallest_prime_ge (p : Nat) (b : Int) : Prop :=
  Nat.Prime p ∧ b ≤ (p : Int) ∧ ∀ q : Nat, Nat.Prime q → b ≤ (q : Int) → p ≤ q

/-- Largest value of a signed 64-bit `long`. -/
def LONG_MAX : Nat := 2 ^ 63 - 1

/-- The values the loop of `ht_hash` computes, in order: for every byte the
power `pow(a, len_s - (i + 1))` converted to `long`, its product with `s[i]`,
and the accumulator `hash` after `+=` and before `% m`. -/
def ht_hash_intermediates (a m len_s : Nat) : List Nat → Nat → Nat → List Nat
  | [], _, _ => []
  | c :: rest, i, hash =>
    a ^ (len_s - (i + 1)) :: a ^ (len_s - (i + 1)) * c :: (hash + a ^ (len_s - (i + 1)) * c)
      :: ht_hash_intermediates a m len_s rest (i + 1)
          ((hash + a ^ (len_s - (i + 1)) * c) % m)

/-- Every live bucket lies on the probe path of its own key, behind
tombstones only: it is the bucket of some attempt `a`, and the buckets of all
earlier attempts are `&HT_DELETED_ITEM`. -/
def probe_invariant (t : ht_hash_table) : Prop :=
  ∀ (idx : Nat) (it : ht_item), t.items[idx]? = some (Slot.item it) →
    ∃ a, ht_get_hash it.key t.size a = idx
      ∧ ∀ a', a' < a → t.items[ht_get_hash it.key t.size a']? = some Slot.deleted

/-- The bucket holds a live item whose key is `k`: the test of `ht_delete`. -/
def holds_key (k : CString) : Slot → Bool
  | Slot.item it => decide (it.key = k)
  | _ => false

/-- Value of the byte `b` as a `char` where `char` is signed (as on x86):
bytes above 127 are negative. -/
def char_value (b : Nat) : Int :=
  if b < 128 then (b : Int) else (b : Int) - 256

/-- The value lies in the range of a 64-bit `long`. -/
abbrev fits_long (v : Int) : Prop :=
  -(2 ^ 63) ≤ v ∧ v ≤ 2 ^ 63 - 1

/-- The value lies in the range of a 32-bit `int`. -/
abbrev fits_int (v : Int) : Prop :=
  -(2 ^ 31) ≤ v ∧ v ≤ 2 ^ 31 - 1

/-- `(long)pow(a, e)` where its value is fixed: for `a ^ e < 2^53` the double is
exact.  Above, the double is rounded, and from `2^63` on the conversion to
`long` is undefined; the result is `none` there. -/
def pow_to_long (a e : Nat) : Option Int :=
  if a ^ e < 2 ^ 53 then some ((a ^ e : Nat) : Int) else none

/-- The `for` loop of `ht_hash` in the arithmetic of the C: `s[i]` is a signed
`char`, the product and the sum are `long`, `%` truncates towards zero.  The
result is `none` when a step is not fixed by the C standard (power not exact,
`long` overflow, `m = 0`). -/
def ht_hash_long_loop (a : Nat) (m : Int) (len_s : Nat) : List Nat → Nat → Int → Option Int
  | [], _, hash => some hash
  | c :: rest, i, hash =>
    match pow_to_long a (len_s - (i + 1)) with
    | none => none
    | some p =>
      if fits_long (p * char_value c) ∧ fits_long (hash + p * char_value c) ∧ m ≠ 0 then
        ht_hash_long_loop a m len_s rest (i + 1) (Int.tmod (hash + p * char_value c) m)
      else none

/-- `ht_hash(s, a, m)` in the arithmetic of the C (see `ht_hash_long_loop`). -/
def ht_hash_long (s : CString) (a : Nat) (m : Int) : Option Int :=
  ht_hash_long_loop a m s.length s 0 0

/-- `ht_get_hash(s, num_buckets, attempt)` in the arithmetic of the C: `int`
operands, `%` truncating towards zero and applied to the second summand only;
`none` when a hash is not fixed or an `int` operation overflows. -/
def ht_get_hash_int (s : CString) (num_buckets attempt : Int) : Option Int :=
  match ht_hash_long s HT_PRIME_1 num_buckets, ht_hash_long s HT_PRIME_2 num_buckets with
  | some hash_a, some hash_b =>
    if fits_int (hash_b + 1) ∧ fits_int (attempt * (hash_b + 1))
        ∧ fits_int (hash_a + Int.tmod (attempt * (hash_b + 1)) num_buckets) then
      some (hash_a + Int.tmod (attempt * (hash_b + 1)) num_buckets)
    else none
  | _, _ => none

/-! ## Concrete keys, values and tables used below -/

/-- The value `"1"`. -/
def val_1 : CString := [49]
/-- The value `"2"`. -/
def val_2 : CString := [50]

/-- The key `"name"`. -/
def key_name : CString := [110, 97, 109, 101]
/-- The key `"age"`. -/
def key_age : CString := [97, 103, 101]
/-- The key `"city"`. -/
def key_city : CString := [99, 105, 116, 121]
/-- The value `"John"`. -/
def val_John : CString := [74, 111, 104, 110]
/-- The value `"30"`. -/
def val_30 : CString := [51, 48]
/-- The value `"New York"`. -/
def val_New_York : CString := [78, 101, 119, 32, 89, 111, 114, 107]

/-- The key `"aa"`: first probe index 10, second 19 (for 53 buckets). -/
def key_aa : CString := [97, 97]
/-- The key `"dy"`: first probe index 10, second 55 (for 53 buckets). -/
def key_dy : CString := [100, 121]
/-- The key `"ab"`: first probe index 11, second 21 (for 53 buckets). -/
def key_ab : CString := [97, 98]
/-- The key `"dz"`: first probe index 11, second 57 (for 53 buckets). -/
def key_dz : CString := [100, 122]
/-- The key `"ae"`: first probe index 14, second 27 (for 53 buckets). -/
def key_ae : CString := [97, 101]
/-- The key `"vn"`: `hash_a = 14`, `hash_b = 52`, every probe index is 14. -/
def key_vn : CString := [118, 110]
/-- The key `"ac"`: first probe index 12, second 23 (for 53 buckets). -/
def key_ac : CString := [97, 99]
/-- The key `"hf"`: first probe index 12, second 54 (for 53 buckets). -/
def key_hf : CString := [104, 102]
/-- The key `"dog"`: first probe index 50, second 78 (for 53 buckets). -/
def key_dog : CString := [100, 111, 103]
/-- The key `"i"`: `hash_a = hash_b = 52`, every probe index is 52. -/
def key_i : CString := [105]
/-- The key `"4"`: `hash_a = hash_b = 52`, every probe index is 52. -/
def key_4 : CString := [52]
/-- The key `"A"`: first probe index 12, second 25 (for 53 buckets). -/
def key_A : CString := [65]
/-- The key `"v"`: first probe index 12, second 25 (for 53 buckets). -/
def key_v : CString := [118]
/-- The key `"m"`. -/
def key_m : CString := [109]
/-- The key `"~"`: first probe index 19 for 107 buckets. -/
def key_tilde : CString := [126]

/-- A table of 53 buckets, base size 53, all `NULL` except bucket `index`. -/
def table_53 (count : Int) (index : Nat) (slot : Slot) : ht_hash_table :=
  { size := 53
    base_size := 53
    count := count
    items := (List.replicate 53 Slot.null).set index slot }

/-- The table of `main` after its three `ht_insert` calls. -/
def demo_table : ht_hash_table :=
  { size := 53
    base_size := 53
    count := 3
    items := (((List.replicate 53 Slot.null).set 50 (Slot.item (ht_new_item key_name val_John))).set
      26 (Slot.item (ht_new_item key_age val_30))).set 10
      (Slot.item (ht_new_item key_city val_New_York)) }

/-- Calls `ht_insert(ht, k, "1")` for the one-byte keys `k` with bytes
`lo, lo + 1, ..., lo + n - 1`. -/
def insert_bytes (lo n : Nat) : List Call :=
  (List.range n).map (fun j => Call.insert [lo + j] val_1)

/-- A table of 107 buckets and base size 53 that holds the one-byte keys with
bytes `33, ..., 33 + n - 1` (`n ≤ 76`), each in the bucket of its byte modulo
107, and, when `extra` is set, the key `"m"` in bucket 2. -/
def table_107 (count : Int) (n : Nat) (extra : Bool) : ht_hash_table :=
  { size := 107
    base_size := 53
    count := count
    items := (List.range 107).map (fun i =>
      if i + 107 < 33 + n then Slot.item (ht_new_item [i + 107] val_1)
      else if i = 2 ∧ extra = true then Slot.item (ht_new_item key_m val_1)
      else if 33 ≤ i ∧ i < 33 + n then Slot.item (ht_new_item [i] val_1)
      else Slot.null) }

/-- The key `"aaaaaaaaa"` (nine bytes). -/
def key_a9 : CString := List.replicate 9 97

/-- The key `"aaaaaaaaaa"` (ten bytes). -/
def key_a10 : CString := List.replicate 10 97

/-- The key `"ag"`: bucket 16 of 53, bucket 91 of 107. -/
def key_ag : CString := [97, 103]

/-- The key `"cz"`: bucket 19 of 53, bucket 91 of 107. -/
def key_cz : CString := [99, 122]

/-- The table after inserting the 36 one-byte keys `"!"` ... `"D"`, then
`"ag"`, `"cz"` and `"m"`: the growth to 107 buckets has put `"ag"` and `"cz"`
in the same bucket 91, where `"cz"` replaced `"ag"`. -/
def merged_table : ht_hash_table :=
  { size := 107
    base_size := 53
    count := 39
    items := (List.range 107).map (fun i =>
      if i = 2 then Slot.item (ht_new_item key_m val_1)
      else if i = 91 then Slot.item (ht_new_item key_cz val_1)
      else if 33 ≤ i ∧ i < 69 then Slot.item (ht_new_item [i] val_1)
      else Slot.null) }

/-- The table after `ht_insert("aa")`, `ht_delete("aa")`, `ht_insert("aa", "2")`:
the tombstone stays in bucket 10 and the item is in bucket 19. -/
def table_aa_again : ht_hash_table :=
  { size := 53
    base_size := 53
    count := 1
    items := ((List.replicate 53 Slot.null).set 10 Slot.deleted).set 19
      (Slot.item (ht_new_item key_aa val_2)) }

/-- The key `"\xe9"`: the single byte 233, which is -23 as a signed `char`. -/
def key_e9 : CString := [233]

/-! ## General lemmas -/

theorem reachable_run_calls (fuel : Nat) (calls : List Call) (t t1 : ht_hash_table)
    (ht : Reachable t) (h : run_calls fuel calls t = Outcome.ok t1) : Reachable t1 := by
  induction calls generalizing t with
  | nil => simp [run_calls] at h; cases h; exact ht
  | cons c rest ih =>
    cases c with
    | insert k v =>
      simp only [run_calls] at h
      split at h
      · rename_i t2 h2
        exact ih t2 (Reachable.insert fuel k v ht h2) h
      · simp at h
      · simp at h
    | delete k =>
      simp only [run_calls] at h
      split at h
      · rename_i t2 h2
        exact ih t2 (Reachable.delete fuel k ht h2) h
      · simp at h
      · simp at h

theorem next_prime_loop_ge (fuel x : Nat) : x ≤ next_prime_loop fuel x := by
  induction fuel generalizing x with
  | zero => simp [next_prime_loop]
  | succ n ih =>
    unfold next_prime_loop
    split
    · exact Nat.le_refl x
    · exact Nat.le_trans (Nat.le_succ x) (ih (x + 1))

theorem next_prime_ge (b : Int) (h : HT_INITIAL_BASE_SIZE ≤ b) : 53 ≤ next_prime b := by
  have h1 : b.toNat ≤ next_prime b := next_prime_loop_ge _ _
  have h2 : (53 : Int) ≤ b := h
  omega

theorem ht_insert_loop_size (fuel : Nat) (ht ht1 : ht_hash_table) (item : ht_item)
    (key : CString) (i : Nat) (h : ht_insert_loop fuel ht item key i = Outcome.ok ht1) :
    ht1.size = ht.size := by
  induction fuel generalizing i with
  | zero => simp [ht_insert_loop] at h
  | succ n ih =>
    unfold ht_insert_loop at h
    simp only at h
    split at h
    · simp at h
    · cases h; rfl
    · exact ih _ h
    · split at h
      · cases h; rfl
      · exact ih _ h

theorem ht_delete_loop_size (fuel : Nat) (ht ht1 : ht_hash_table)
    (key : CString) (i : Nat) (h : ht_delete_loop fuel ht key i = Outcome.ok ht1) :
    ht1.size = ht.size := by
  induction fuel generalizing ht i with
  | zero => simp [ht_delete_loop] at h
  | succ n ih =>
    unfold ht_delete_loop at h
    simp only at h
    split at h
    · simp at h
    · cases h; rfl
    · exact ih _ _ h
    · split at h
      · have h1 := ih _ _ h
        simpa using h1
      · exact ih _ _ h

theorem ht_rehash_size_ge (ins : ht_hash_table → CString → CString → Outcome ht_hash_table)
    (hins : ∀ t k v t1, ins t k v = Outcome.ok t1 → 53 ≤ t.size → 53 ≤ t1.size)
    (l : List Slot) (t t1 : ht_hash_table) (h : ht_rehash ins l t = Outcome.ok t1)
    (ht : 53 ≤ t.size) : 53 ≤ t1.size := by
  induction l generalizing t with
  | nil => simp [ht_rehash] at h; cases h; exact ht
  | cons a rest ih =>
    cases a with
    | null => exact ih t (by simpa [ht_rehash] using h) ht
    | deleted => exact ih t (by simpa [ht_rehash] using h) ht
    | item it =>
      simp only [ht_rehash] at h
      split at h
      · rename_i t2 h2
        exact ih t2 h (hins _ _ _ _ h2 ht)
      · simp at h
      · simp at h

theorem ht_resize_with_size_ge (ins : ht_hash_table → CString → CString → Outcome ht_hash_table)
    (hins : ∀ t k v t1, ins t k v = Outcome.ok t1 → 53 ≤ t.size → 53 ≤ t1.size)
    (t t1 : ht_hash_table) (b : Int) (h : ht_resize_with ins t b = Outcome.ok t1)
    (ht : 53 ≤ t.size) : 53 ≤ t1.size := by
  unfold ht_resize_with at h
  split at h
  · cases h; exact ht
  · split at h
    · rename_i hb new_ht hr
      cases h
      show 53 ≤ new_ht.size
      exact ht_rehash_size_ge ins hins _ _ new_ht hr (next_prime_ge b (by omega))
    · simp at h
    · simp at h

theorem ht_insert_size_ge (fuel : Nat) (t t1 : ht_hash_table) (k v : CString)
    (h : ht_insert fuel t k v = Outcome.ok t1) (ht : 53 ≤ t.size) : 53 ≤ t1.size := by
  induction fuel generalizing t t1 k v with
  | zero => simp [ht_insert] at h
  | succ n ih =>
    unfold ht_insert at h
    simp only at h
    split at h
    · rename_i t2 h2
      rw [ht_insert_loop_size _ _ _ _ _ _ h]
      split at h2
      · exact ht_resize_with_size_ge _ (fun a b c d e f => ih a d b c e f) _ _ _ h2 ht
      · cases h2; exact ht
    · simp at h
    · simp at h

theorem ht_delete_size_ge (fuel : Nat) (t t1 : ht_hash_table) (k : CString)
    (h : ht_delete fuel t k = Outcome.ok t1) (ht : 53 ≤ t.size) : 53 ≤ t1.size := by
  unfold ht_delete at h
  simp only at h
  split at h
  · rename_i t2 h2
    split at h
    · rename_i t3 h3
      cases h
      show 53 ≤ t3.size
      rw [ht_delete_loop_size _ _ _ _ _ h3]
      split at h2
      · exact ht_resize_with_size_ge _ (fun a b c d e f => ht_insert_size_ge fuel a d b c e f) _ _ _ h2 ht
      · cases h2; exact ht
    · simp at h
    · simp at h
  · simp at h
  · simp at h

theorem reachable_size_ge (t : ht_hash_table) (h : Reachable t) : 53 ≤ t.size := by
  induction h with
  | new => decide
  | insert fuel key value _ hi ih => exact ht_insert_size_ge _ _ _ _ _ hi ih
  | delete fuel key _ hd ih => exact ht_delete_size_ge _ _ _ _ hd ih

theorem ht_get_hash_stall (s : CString) (n i : Nat) (h : ht_hash s HT_PRIME_2 n + 1 = n) :
    ht_get_hash s n i = ht_hash s HT_PRIME_1 n := by
  unfold ht_get_hash
  simp only [h, Nat.mul_mod_left, Nat.add_zero]

theorem ht_search_loop_stall (fuel : Nat) (ht : ht_hash_table) (key : CString) (i : Nat)
    (hstep : ht_hash key HT_PRIME_2 ht.size + 1 = ht.size)
    (hslot : ht.items[ht_hash key HT_PRIME_1 ht.size]? = some Slot.deleted
      ∨ ∃ it, ht.items[ht_hash key HT_PRIME_1 ht.size]? = some (Slot.item it) ∧ it.key ≠ key) :
    ht_search_loop fuel ht key i = Outcome.out_of_fuel := by
  induction fuel generalizing i with
  | zero => rfl
  | succ n ih =>
    unfold ht_search_loop
    rw [ht_get_hash_stall _ _ _ hstep]
    rcases hslot with hd | ⟨it, hit, hne⟩
    · rw [hd]; exact ih _
    · rw [hit]; simp only [hne, if_false]; exact ih _

theorem ht_insert_loop_stall (fuel : Nat) (ht : ht_hash_table) (item : ht_item) (key : CString)
    (i : Nat) (hstep : ht_hash item.key HT_PRIME_2 ht.size + 1 = ht.size)
    (hslot : ht.items[ht_hash item.key HT_PRIME_1 ht.size]? = some Slot.deleted) :
    ht_insert_loop fuel ht item key i = Outcome.out_of_fuel := by
  induction fuel generalizing i with
  | zero => rfl
  | succ n ih =>
    unfold ht_insert_loop
    simp only [ht_get_hash_stall _ _ _ hstep, hslot]
    exact ih _

theorem ht_delete_loop_stall (fuel : Nat) (ht : ht_hash_table) (key : CString) (i : Nat)
    (hstep : ht_hash key HT_PRIME_2 ht.size + 1 = ht.size)
    (hslot : ht.items[ht_hash key HT_PRIME_1 ht.size]? = some Slot.deleted) :
    ht_delete_loop fuel ht key i = Outcome.out_of_fuel := by
  induction fuel generalizing i with
  | zero => rfl
  | succ n ih =>
    unfold ht_delete_loop
    simp only [ht_get_hash_stall _ _ _ hstep, hslot]
    exact ih _

theorem ht_insert_loop_base_size (fuel : Nat) (ht ht1 : ht_hash_table) (item : ht_item)
    (key : CString) (i : Nat) (h : ht_insert_loop fuel ht item key i = Outcome.ok ht1) :
    ht1.base_size = ht.base_size := by
  induction fuel generalizing i with
  | zero => simp [ht_insert_loop] at h
  | succ n ih =>
    unfold ht_insert_loop at h
    simp only at h
    split at h
    · simp at h
    · cases h; rfl
    · exact ih _ h
    · split at h
      · cases h; rfl
      · exact ih _ h

theorem ht_delete_loop_base_size (fuel : Nat) (ht ht1 : ht_hash_table)
    (key : CString) (i : Nat) (h : ht_delete_loop fuel ht key i = Outcome.ok ht1) :
    ht1.base_size = ht.base_size := by
  induction fuel generalizing ht i with
  | zero => simp [ht_delete_loop] at h
  | succ n ih =>
    unfold ht_delete_loop at h
    simp only at h
    split at h
    · simp at h
    · cases h; rfl
    · exact ih _ _ h
    · split at h
      · have h1 := ih _ _ h
        simpa using h1
      · exact ih _ _ h

theorem ht_resize_with_base_size (ins : ht_hash_table → CString → CString → Outcome ht_hash_table)
    (t t1 : ht_hash_table) (b : Int) (h : ht_resize_with ins t b = Outcome.ok t1) :
    t1.base_size = t.base_size := by
  unfold ht_resize_with at h
  split at h
  · cases h; rfl
  · split at h
    · cases h; rfl
    · simp at h
    · simp at h

theorem ht_insert_base_size (fuel : Nat) (t t1 : ht_hash_table) (k v : CString)
    (h : ht_insert fuel t k v = Outcome.ok t1) : t1.base_size = t.base_size := by
  cases fuel with
  | zero => simp [ht_insert] at h
  | succ n =>
    unfold ht_insert at h
    simp only at h
    split at h
    · rename_i t2 h2
      rw [ht_insert_loop_base_size _ _ _ _ _ _ h]
      split at h2
      · exact ht_resize_with_base_size _ _ _ _ h2
      · cases h2; rfl
    · simp at h
    · simp at h

theorem tdiv_two_lt (b : Int) (h : b < 106) : Int.tdiv b 2 < 53 := by
  rcases Int.le_total 0 b with h0 | h0
  · rw [Int.tdiv_eq_ediv h0 (by decide)]
    omega
  · have h1 : Int.tdiv b 2 = -(Int.tdiv (-b) 2) := by
      rw [Int.neg_tdiv, Int.neg_neg]
    rw [h1, Int.tdiv_eq_ediv (by omega) (by decide)]
    omega

/-- A table whose `base_size` is below 106 is never shrunk by `ht_delete`:
the requested base `base_size / 2` is below 53 and `ht_resize` returns at once. -/
theorem ht_delete_keeps_size (fuel : Nat) (t t1 : ht_hash_table) (k : CString)
    (hb : t.base_size < 106) (h : ht_delete fuel t k = Outcome.ok t1) :
    t1.size = t.size ∧ t1.base_size = t.base_size := by
  have hr : ht_resize_down fuel t = Outcome.ok t := by
    have h26 : Int.tdiv t.base_size 2 < HT_INITIAL_BASE_SIZE := by
      exact tdiv_two_lt _ hb
    simp [ht_resize_down, ht_resize, ht_resize_with, h26]
  unfold ht_delete at h
  simp only [hr, ite_self] at h
  split at h
  · rename_i t3 h3
    cases h
    exact ⟨ht_delete_loop_size _ _ t3 _ _ h3, ht_delete_loop_base_size _ _ t3 _ _ h3⟩
  · simp at h
  · simp at h

/-- Every table reachable from `ht_new()` has `base_size = 53`: `ht_resize`
writes the old `base_size` back. -/
theorem reachable_base_size (t : ht_hash_table) (h : Reachable t) : t.base_size = 53 := by
  induction h with
  | new => rfl
  | insert fuel key value _ hi ih => rw [ht_insert_base_size _ _ _ _ _ hi, ih]
  | delete fuel key _ hd ih =>
    rw [(ht_delete_keeps_size _ _ _ _ (by omega) hd).2, ih]

theorem ht_insert_loop_length (fuel : Nat) (ht ht1 : ht_hash_table) (item : ht_item)
    (key : CString) (i : Nat) (h : ht_insert_loop fuel ht item key i = Outcome.ok ht1) :
    ht1.items.length = ht.items.length := by
  induction fuel generalizing i with
  | zero => simp [ht_insert_loop] at h
  | succ n ih =>
    unfold ht_insert_loop at h
    simp only at h
    split at h
    · simp at h
    · cases h; simp
    · exact ih _ h
    · split at h
      · cases h; simp
      · exact ih _ h

theorem ht_delete_loop_length (fuel : Nat) (ht ht1 : ht_hash_table)
    (key : CString) (i : Nat) (h : ht_delete_loop fuel ht key i = Outcome.ok ht1) :
    ht1.items.length = ht.items.length := by
  induction fuel generalizing ht i with
  | zero => simp [ht_delete_loop] at h
  | succ n ih =>
    unfold ht_delete_loop at h
    simp only at h
    split at h
    · simp at h
    · cases h; rfl
    · exact ih _ _ h
    · split at h
      · have h1 := ih _ _ h
        simpa using h1
      · exact ih _ _ h

theorem ht_rehash_well_formed (ins : ht_hash_table → CString → CString → Outcome ht_hash_table)
    (hins : ∀ t k v t1, ins t k v = Outcome.ok t1 → well_formed t → well_formed t1)
    (l : List Slot) (t t1 : ht_hash_table) (h : ht_rehash ins l t = Outcome.ok t1)
    (ht : well_formed t) : well_formed t1 := by
  induction l generalizing t with
  | nil => simp [ht_rehash] at h; cases h; exact ht
  | cons a rest ih =>
    cases a with
    | null => exact ih t (by simpa [ht_rehash] using h) ht
    | deleted => exact ih t (by simpa [ht_rehash] using h) ht
    | item it =>
      simp only [ht_rehash] at h
      split at h
      · rename_i t2 h2
        exact ih t2 h (hins _ _ _ _ h2 ht)
      · simp at h
      · simp at h

theorem ht_new_sized_well_formed (b : Int) : well_formed (ht_new_sized b) := by
  simp [well_formed, ht_new_sized]

theorem ht_resize_with_well_formed
    (ins : ht_hash_table → CString → CString → Outcome ht_hash_table)
    (hins : ∀ t k v t1, ins t k v = Outcome.ok t1 → well_formed t → well_formed t1)
    (t t1 : ht_hash_table) (b : Int) (h : ht_resize_with ins t b = Outcome.ok t1)
    (ht : well_formed t) : well_formed t1 := by
  unfold ht_resize_with at h
  split at h
  · cases h; exact ht
  · split at h
    · rename_i hb new_ht hr
      cases h
      exact ht_rehash_well_formed ins hins _ _ new_ht hr (ht_new_sized_well_formed b)
    · simp at h
    · simp at h

theorem ht_insert_well_formed (fuel : Nat) (t t1 : ht_hash_table) (k v : CString)
    (h : ht_insert fuel t k v = Outcome.ok t1) (ht : well_formed t) : well_formed t1 := by
  induction fuel generalizing t t1 k v with
  | zero => simp [ht_insert] at h
  | succ n ih =>
    unfold ht_insert at h
    simp only at h
    split at h
    · rename_i t2 h2
      have h3 : well_formed t2 := by
        split at h2
        · exact ht_resize_with_well_formed _ (fun a b c d e f => ih a d b c e f) _ _ _ h2 ht
        · cases h2; exact ht
      unfold well_formed
      rw [ht_insert_loop_length _ _ _ _ _ _ h, ht_insert_loop_size _ _ _ _ _ _ h]
      exact h3
    · simp at h
    · simp at h

theorem ht_delete_well_formed (fuel : Nat) (t t1 : ht_hash_table) (k : CString)
    (h : ht_delete fuel t k = Outcome.ok t1) (ht : well_formed t) : well_formed t1 := by
  unfold ht_delete at h
  simp only at h
  split at h
  · rename_i t2 h2
    have h4 : well_formed t2 := by
      split at h2
      · exact ht_resize_with_well_formed _
          (fun a b c d e f => ht_insert_well_formed fuel a d b c e f) _ _ _ h2 ht
      · cases h2; exact ht
    split at h
    · rename_i t3 h3
      cases h
      show t3.items.length = t3.size
      rw [ht_delete_loop_length _ _ t3 _ _ h3, ht_delete_loop_size _ _ t3 _ _ h3]
      exact h4
    · simp at h
    · simp at h
  · simp at h
  · simp at h

/-- In every table reachable from `ht_new()` the bucket array has exactly
`size` entries, so the bound checked on a bucket read is `index < size`. -/
theorem reachable_well_formed (t : ht_hash_table) (h : Reachable t) : well_formed t := by
  induction h with
  | new => exact ht_new_sized_well_formed _
  | insert fuel key value _ hi ih => exact ht_insert_well_formed _ _ _ _ _ hi ih
  | delete fuel key _ hd ih => exact ht_delete_well_formed _ _ _ _ hd ih

/-- Where the placement loop of `ht_insert` stores the item: in one bucket `j`
that is inside the array and was not a tombstone; `size` is unchanged. -/
theorem ht_insert_loop_places (fuel : Nat) (ht ht1 : ht_hash_table) (item : ht_item)
    (key : CString) (i : Nat) (h : ht_insert_loop fuel ht item key i = Outcome.ok ht1) :
    ∃ j, j < ht.items.length ∧ ht.items[j]? ≠ some Slot.deleted
      ∧ ht1.items = ht.items.set j (Slot.item item) ∧ ht1.size = ht.size := by
  induction fuel generalizing i with
  | zero => simp [ht_insert_loop] at h
  | succ n ih =>
    unfold ht_insert_loop at h
    simp only at h
    split at h
    · simp at h
    · rename_i hs
      cases h
      exact ⟨_, (List.getElem?_eq_some_iff.mp hs).1, by rw [hs]; simp, rfl, rfl⟩
    · exact ih _ h
    · rename_i cur hs
      split at h
      · cases h
        exact ⟨_, (List.getElem?_eq_some_iff.mp hs).1, by rw [hs]; simp, rfl, rfl⟩
      · exact ih _ h

/-- Round trip of the two probe loops: when the placement loop of `ht_insert`
returns, the probe loop of `ht_search` for the same key, started at the same
attempt with the same fuel, returns the inserted value. -/
theorem ht_insert_loop_search (fuel : Nat) (ht ht1 : ht_hash_table) (item : ht_item)
    (key : CString) (i : Nat) (hk : item.key = key)
    (h : ht_insert_loop fuel ht item key i = Outcome.ok ht1) :
    ht_search_loop fuel ht1 key i = Outcome.ok (some item.value) := by
  induction fuel generalizing i with
  | zero => simp [ht_insert_loop] at h
  | succ n ih =>
    obtain ⟨j, hj, hnd, hitems, hsize⟩ := ht_insert_loop_places _ _ _ _ _ _ h
    unfold ht_insert_loop at h
    simp only at h
    unfold ht_search_loop
    rw [hsize, ← hk]
    split at h
    · simp at h
    · rename_i hs
      cases h
      simp only [List.getElem?_set_self (List.getElem?_eq_some_iff.mp hs).1, if_true]
    · rename_i hs
      have hne : j ≠ ht_get_hash item.key ht.size i := by
        intro he
        rw [he] at hnd
        exact hnd hs
      rw [hitems, List.getElem?_set_ne hne, hs]
      simp only
      rw [hk]
      exact ih _ h
    · rename_i cur hs
      split at h
      · cases h
        simp only [List.getElem?_set_self (List.getElem?_eq_some_iff.mp hs).1, if_true]
      · rename_i hne
        exact absurd hk hne

/-- Conditional round trip: whenever `ht_insert(ht, key, value)` returns,
`ht_search(ht, key)` on the resulting table returns `value`. -/
theorem ht_insert_search (fuel : Nat) (t t1 : ht_hash_table) (k v : CString)
    (h : ht_insert fuel t k v = Outcome.ok t1) :
    ht_search fuel t1 k = Outcome.ok (some v) := by
  cases fuel with
  | zero => simp [ht_insert] at h
  | succ n =>
    unfold ht_insert at h
    simp only at h
    split at h
    · exact ht_insert_loop_search _ _ _ _ _ _ rfl h
    · simp at h
    · simp at h

/-- One call level of `ht_insert`, with `ht_resize_up` written out: the
definition passes `ht_insert fuel` to `ht_resize_with` because `ht_insert` and
`ht_resize` call each other. -/
theorem ht_insert_succ (fuel : Nat) (ht : ht_hash_table) (key value : CString) :
    ht_insert (fuel + 1) ht key value
      = match (if Int.tdiv (ht.count * 100) ht.size > 70 then ht_resize_up fuel ht
               else Outcome.ok ht) with
        | Outcome.ok ht1 => ht_insert_loop (fuel + 1) ht1 (ht_new_item key value) key 0
        | Outcome.out_of_bounds => Outcome.out_of_bounds
        | Outcome.out_of_fuel => Outcome.out_of_fuel :=
  rfl

theorem ht_hash_loop_mod (a m len_s : Nat) (rest : List Nat) (i hash : Nat) :
    ht_hash_loop a m len_s rest i hash % m = (hash + ht_hash_terms a len_s rest i) % m := by
  induction rest generalizing i hash with
  | nil => simp [ht_hash_loop, ht_hash_terms]
  | cons c rest ih =>
    simp only [ht_hash_loop, ht_hash_terms]
    rw [ih, Nat.mod_add_mod, Nat.add_assoc]

theorem ht_hash_loop_lt (a m len_s : Nat) (rest : List Nat) (i hash : Nat) (h : hash < m) :
    ht_hash_loop a m len_s rest i hash < m := by
  induction rest generalizing i hash with
  | nil => simpa [ht_hash_loop] using h
  | cons c rest ih =>
    simp only [ht_hash_loop]
    exact ih _ _ (Nat.mod_lt _ (by omega))

theorem ht_hash_terms_eq_sum (a len_s : Nat) (rest : List Nat) (i : Nat) :
    ht_hash_terms a len_s rest i
      = ((List.range rest.length).map
          (fun j => rest.getD j 0 * a ^ (len_s - 1 - (i + j)))).sum := by
  induction rest generalizing i with
  | nil => simp [ht_hash_terms]
  | cons c rest ih =>
    simp only [ht_hash_terms, List.length_cons, List.range_succ_eq_map, List.map_cons,
      List.sum_cons, List.map_map, ih]
    congr 1
    · simp [Nat.mul_comm, Nat.sub_sub, Nat.add_comm]
    · congr 1
      apply List.map_congr_left
      intro j _
      simp only [Function.comp, List.getD_cons_succ]
      congr 2
      omega

theorem ht_hash_lt (s : CString) (a m : Nat) (hm : 1 ≤ m) : ht_hash s a m < m :=
  ht_hash_loop_lt a m s.length s 0 0 (by omega)

theorem ht_hash_eq_reference (s : CString) (a m : Nat) :
    ht_hash s a m % m = hash_reference s a m := by
  unfold ht_hash hash_reference positional_value
  rw [ht_hash_loop_mod, ht_hash_terms_eq_sum]
  simp

/-- What the placement loop does when it returns: it has walked tombstones
only, up to some attempt `a`, and has written the item into the bucket of
attempt `a`, which was `NULL` (then `count` grew by one) or live (then `count`
is unchanged). -/
theorem ht_insert_loop_path (fuel : Nat) (ht ht1 : ht_hash_table) (item : ht_item)
    (key : CString) (i : Nat) (hk : item.key = key)
    (h : ht_insert_loop fuel ht item key i = Outcome.ok ht1) :
    ∃ a, i ≤ a
      ∧ (∀ a', i ≤ a' → a' < a → ht.items[ht_get_hash key ht.size a']? = some Slot.deleted)
      ∧ ((ht.items[ht_get_hash key ht.size a]? = some Slot.null ∧ ht1.count = ht.count + 1)
        ∨ ((∃ cur, ht.items[ht_get_hash key ht.size a]? = some (Slot.item cur))
          ∧ ht1.count = ht.count))
      ∧ ht1.items = ht.items.set (ht_get_hash key ht.size a) (Slot.item item)
      ∧ ht1.size = ht.size := by
  induction fuel generalizing i with
  | zero => simp [ht_insert_loop] at h
  | succ n ih =>
    unfold ht_insert_loop at h
    simp only [hk] at h
    split at h
    · simp at h
    · rename_i hs
      cases h
      exact ⟨i, Nat.le_refl i, fun a' h1 h2 => absurd h1 (by omega), Or.inl ⟨hs, rfl⟩, rfl, rfl⟩
    · rename_i hs
      obtain ⟨a, hia, hpath, hslot, hitems, hsize⟩ := ih _ h
      refine ⟨a, by omega, ?_, hslot, hitems, hsize⟩
      intro a' h1 h2
      by_cases he : a' = i
      · rw [he]; exact hs
      · exact hpath a' (by omega) h2
    · rename_i cur hs
      simp only [if_true] at h
      cases h
      exact ⟨i, Nat.le_refl i, fun a' h1 h2 => absurd h1 (by omega),
        Or.inr ⟨⟨cur, hs⟩, rfl⟩, rfl, rfl⟩

theorem getElem?_set_deleted (items : List Slot) (j x : Nat) (s : Slot)
    (hj : items[j]? ≠ some Slot.deleted) (hx : items[x]? = some Slot.deleted) :
    (items.set j s)[x]? = some Slot.deleted := by
  have hne : j ≠ x := by
    intro he
    rw [he] at hj
    exact hj hx
  rw [List.getElem?_set_ne hne, hx]

theorem ht_insert_loop_probe_invariant (fuel : Nat) (ht ht1 : ht_hash_table) (k v : CString)
    (h : ht_insert_loop fuel ht (ht_new_item k v) k 0 = Outcome.ok ht1)
    (hinv : probe_invariant ht) : probe_invariant ht1 := by
  obtain ⟨a, _, hpath, hslot, hitems, hsize⟩ :=
    ht_insert_loop_path fuel ht ht1 (ht_new_item k v) k 0 rfl h
  have hj : ht.items[ht_get_hash k ht.size a]? ≠ some Slot.deleted := by
    rcases hslot with ⟨hn, _⟩ | ⟨⟨cur, hc⟩, _⟩
    · rw [hn]; simp
    · rw [hc]; simp
  intro idx it hit
  rw [hitems] at hit
  rw [hsize, hitems]
  by_cases he : ht_get_hash k ht.size a = idx
  · have hlt : ht_get_hash k ht.size a < ht.items.length := by
      rcases hslot with ⟨hn, _⟩ | ⟨⟨cur, hc⟩, _⟩
      · exact (List.getElem?_eq_some_iff.mp hn).1
      · exact (List.getElem?_eq_some_iff.mp hc).1
    rw [← he, List.getElem?_set_self hlt] at hit
    have hit2 : it = ht_new_item k v := by
      simp only [Option.some.injEq, Slot.item.injEq] at hit
      exact hit.symm
    subst hit2
    refine ⟨a, he, fun a' ha' => ?_⟩
    exact getElem?_set_deleted _ _ _ _ hj (hpath a' (Nat.zero_le _) ha')
  · rw [List.getElem?_set_ne he] at hit
    obtain ⟨a2, ha2, hp2⟩ := hinv idx it hit
    exact ⟨a2, ha2, fun a' ha' => getElem?_set_deleted _ _ _ _ hj (hp2 a' ha')⟩

/-- The probe loop of `ht_delete` only turns live buckets into tombstones. -/
theorem ht_delete_loop_items (fuel : Nat) (ht ht1 : ht_hash_table) (key : CString) (i : Nat)
    (h : ht_delete_loop fuel ht key i = Outcome.ok ht1) :
    (∀ x : Nat, ht.items[x]? = some Slot.deleted → ht1.items[x]? = some Slot.deleted)
    ∧ (∀ (x : Nat) (it : ht_item), ht1.items[x]? = some (Slot.item it) →
        ht.items[x]? = some (Slot.item it)) := by
  induction fuel generalizing ht i with
  | zero => simp [ht_delete_loop] at h
  | succ n ih =>
    unfold ht_delete_loop at h
    simp only at h
    split at h
    · simp at h
    · cases h
      exact ⟨fun _ hx => hx, fun _ _ hx => hx⟩
    · exact ih _ _ h
    · rename_i cur hs
      split at h
      · obtain ⟨h1, h2⟩ := ih _ _ h
        simp only at h1 h2
        constructor
        · intro x hx
          apply h1
          by_cases he : ht_get_hash key ht.size i = x
          · rw [← he, List.getElem?_set_self (List.getElem?_eq_some_iff.mp hs).1]
          · rw [List.getElem?_set_ne he, hx]
        · intro x it hx
          have h3 := h2 x it hx
          by_cases he : ht_get_hash key ht.size i = x
          · rw [← he, List.getElem?_set_self (List.getElem?_eq_some_iff.mp hs).1] at h3
            simp at h3
          · rw [List.getElem?_set_ne he] at h3
            exact h3
      · exact ih _ _ h

theorem ht_delete_loop_probe_invariant (fuel : Nat) (ht ht1 : ht_hash_table) (key : CString)
    (i : Nat) (h : ht_delete_loop fuel ht key i = Outcome.ok ht1)
    (hinv : probe_invariant ht) : probe_invariant ht1 := by
  obtain ⟨h1, h2⟩ := ht_delete_loop_items _ _ _ _ _ h
  intro idx it hit
  obtain ⟨a, ha, hp⟩ := hinv idx it (h2 idx it hit)
  rw [ht_delete_loop_size _ _ _ _ _ h]
  exact ⟨a, ha, fun a' ha' => h1 _ (hp a' ha')⟩

theorem ht_new_sized_probe_invariant (b : Int) : probe_invariant (ht_new_sized b) := by
  intro idx it hit
  simp only [ht_new_sized, List.getElem?_replicate] at hit
  split at hit <;> simp at hit

theorem ht_rehash_probe_invariant
    (ins : ht_hash_table → CString → CString → Outcome ht_hash_table)
    (hins : ∀ t k v t1, ins t k v = Outcome.ok t1 → probe_invariant t → probe_invariant t1)
    (l : List Slot) (t t1 : ht_hash_table) (h : ht_rehash ins l t = Outcome.ok t1)
    (ht : probe_invariant t) : probe_invariant t1 := by
  induction l generalizing t with
  | nil => simp [ht_rehash] at h; cases h; exact ht
  | cons a rest ih =>
    cases a with
    | null => exact ih t (by simpa [ht_rehash] using h) ht
    | deleted => exact ih t (by simpa [ht_rehash] using h) ht
    | item it =>
      simp only [ht_rehash] at h
      split at h
      · rename_i t2 h2
        exact ih t2 h (hins _ _ _ _ h2 ht)
      · simp at h
      · simp at h

theorem ht_resize_with_probe_invariant
    (ins : ht_hash_table → CString → CString → Outcome ht_hash_table)
    (hins : ∀ t k v t1, ins t k v = Outcome.ok t1 → probe_invariant t → probe_invariant t1)
    (t t1 : ht_hash_table) (b : Int) (h : ht_resize_with ins t b = Outcome.ok t1)
    (ht : probe_invariant t) : probe_invariant t1 := by
  unfold ht_resize_with at h
  split at h
  · cases h; exact ht
  · split at h
    · rename_i hb new_ht hr
      cases h
      exact ht_rehash_probe_invariant ins hins _ _ new_ht hr (ht_new_sized_probe_invariant b)
    · simp at h
    · simp at h

theorem ht_insert_probe_invariant (fuel : Nat) (t t1 : ht_hash_table) (k v : CString)
    (h : ht_insert fuel t k v = Outcome.ok t1) (ht : probe_invariant t) :
    probe_invariant t1 := by
  induction fuel generalizing t t1 k v with
  | zero => simp [ht_insert] at h
  | succ n ih =>
    unfold ht_insert at h
    simp only at h
    split at h
    · rename_i t2 h2
      have h3 : probe_invariant t2 := by
        split at h2
        · exact ht_resize_with_probe_invariant _ (fun a b c d e f => ih a d b c e f) _ _ _ h2 ht
        · cases h2; exact ht
      exact ht_insert_loop_probe_invariant _ _ _ _ _ h h3
    · simp at h
    · simp at h

theorem ht_delete_probe_invariant (fuel : Nat) (t t1 : ht_hash_table) (k : CString)
    (h : ht_delete fuel t k = Outcome.ok t1) (ht : probe_invariant t) :
    probe_invariant t1 := by
  unfold ht_delete at h
  simp only at h
  split at h
  · rename_i t2 h2
    have h4 : probe_invariant t2 := by
      split at h2
      · exact ht_resize_with_probe_invariant _
          (fun a b c d e f => ht_insert_probe_invariant fuel a d b c e f) _ _ _ h2 ht
      · cases h2; exact ht
    split at h
    · rename_i t3 h3
      cases h
      exact ht_delete_loop_probe_invariant _ _ t3 _ _ h3 h4
    · simp at h
    · simp at h
  · simp at h
  · simp at h

theorem reachable_probe_invariant (t : ht_hash_table) (h : Reachable t) :
    probe_invariant t := by
  induction h with
  | new => exact ht_new_sized_probe_invariant _
  | insert fuel key value _ hi ih => exact ht_insert_probe_invariant _ _ _ _ _ hi ih
  | delete fuel key _ hd ih => exact ht_delete_probe_invariant _ _ _ _ hd ih

/-- A search that meets tombstones at the attempts `i, ..., i + d - 1` and a
live item with the key at attempt `i + d` returns its value. -/
theorem ht_search_loop_finds (d : Nat) (t : ht_hash_table) (key : CString) (it : ht_item)
    (i : Nat) (hk : it.key = key)
    (hpath : ∀ a', i ≤ a' → a' < i + d →
      t.items[ht_get_hash key t.size a']? = some Slot.deleted)
    (hslot : t.items[ht_get_hash key t.size (i + d)]? = some (Slot.item it)) (fuel : Nat) :
    ht_search_loop (d + 1 + fuel) t key i = Outcome.ok (some it.value) := by
  induction d generalizing i with
  | zero =>
    have h1 : 0 + 1 + fuel = fuel + 1 := by omega
    rw [h1]
    unfold ht_search_loop
    simp only [Nat.add_zero] at hslot
    rw [hslot]
    simp [hk]
  | succ n ih =>
    have h1 : n + 1 + 1 + fuel = (n + 1 + fuel) + 1 := by omega
    rw [h1]
    unfold ht_search_loop
    rw [hpath i (Nat.le_refl i) (by omega)]
    simp only
    apply ih
    · intro a' h2 h3
      exact hpath a' (by omega) (by omega)
    · have h4 : i + 1 + n = i + (n + 1) := by omega
      rw [h4]
      exact hslot

theorem countP_le_one_of_unique {α : Type} (p : α → Bool) (l : List α)
    (h : ∀ (i j : Nat) (x y : α), l[i]? = some x → l[j]? = some y → p x = true →
      p y = true → i = j) : l.countP p ≤ 1 := by
  induction l with
  | nil => simp
  | cons x xs ih =>
    have hxs : xs.countP p ≤ 1 := by
      apply ih
      intro i j a b ha hb pa pb
      have := h (i + 1) (j + 1) a b (by simpa using ha) (by simpa using hb) pa pb
      omega
    rw [List.countP_cons]
    by_cases hp : p x = true
    · have hz : xs.countP p = 0 := by
        rw [List.countP_eq_zero]
        intro y hy hpy
        obtain ⟨j, hj⟩ := List.getElem?_of_mem hy
        have := h 0 (j + 1) x y (by simp) (by simpa using hj) hp hpy
        omega
      simp [hz, hp]
    · simp [hp, hxs]

theorem probe_invariant_unique (t : ht_hash_table) (hinv : probe_invariant t) (i j : Nat)
    (it1 it2 : ht_item) (h1 : t.items[i]? = some (Slot.item it1))
    (h2 : t.items[j]? = some (Slot.item it2)) (hk : it1.key = it2.key) : i = j := by
  obtain ⟨a1, ha1, hp1⟩ := hinv i it1 h1
  obtain ⟨a2, ha2, hp2⟩ := hinv j it2 h2
  rw [hk] at ha1 hp1
  rcases Nat.lt_trichotomy a1 a2 with hlt | heq | hgt
  · have h3 := hp2 a1 hlt
    rw [ha1, h1] at h3
    simp at h3
  · rw [← ha1, ← ha2, heq]
  · have h3 := hp1 a2 hgt
    rw [ha2, h2] at h3
    simp at h3

theorem ht_resize_with_count (ins : ht_hash_table → CString → CString → Outcome ht_hash_table)
    (t t1 : ht_hash_table) (b : Int) (h : ht_resize_with ins t b = Outcome.ok t1) :
    t1.count = t.count := by
  unfold ht_resize_with at h
  split at h
  · cases h; rfl
  · split at h
    · cases h; rfl
    · simp at h
    · simp at h

/-- The placement loop passes the tombstones at the attempts `i, ..., i + a - 1`
and fills the `NULL` bucket of attempt `i + a`. -/
theorem ht_insert_loop_fills_null (a : Nat) (ht : ht_hash_table) (item : ht_item)
    (key : CString) (i : Nat) (hk : item.key = key)
    (hpath : ∀ a', i ≤ a' → a' < i + a →
      ht.items[ht_get_hash key ht.size a']? = some Slot.deleted)
    (hslot : ht.items[ht_get_hash key ht.size (i + a)]? = some Slot.null) (fuel : Nat) :
    ht_insert_loop (a + 1 + fuel) ht item key i
      = Outcome.ok { ht with
          items := ht.items.set (ht_get_hash key ht.size (i + a)) (Slot.item item)
          count := ht.count + 1 } := by
  induction a generalizing i with
  | zero =>
    have h1 : 0 + 1 + fuel = fuel + 1 := by omega
    rw [h1]
    unfold ht_insert_loop
    simp only [Nat.add_zero] at hslot
    simp only [hk, Nat.add_zero, hslot]
  | succ n ih =>
    have h1 : n + 1 + 1 + fuel = (n + 1 + fuel) + 1 := by omega
    rw [h1]
    unfold ht_insert_loop
    simp only [hk, hpath i (Nat.le_refl i) (by omega)]
    have h4 : i + (n + 1) = i + 1 + n := by omega
    rw [h4]
    apply ih
    · intro a' h2 h3
      exact hpath a' (by omega) (by omega)
    · rw [← h4]
      exact hslot

theorem is_prime_eq_one_iff (x : Nat) : is_prime x = 1 ↔ Nat.Prime x := by
  unfold is_prime
  constructor
  · intro h
    split at h
    · simp at h
    · rename_i h2
      split at h
      · simp at h
      · rename_i hany
        rw [Nat.prime_def_le_sqrt]
        refine ⟨by omega, fun d hd hsq hdvd => hany ?_⟩
        rw [List.any_eq_true]
        have hdx : d * d ≤ x := Nat.le_sqrt.mp hsq
        have hlt : d < x := by
          have h3 : d * 2 ≤ d * d := Nat.mul_le_mul_left d hd
          omega
        exact ⟨d, List.mem_range.mpr hlt, by
          simp only [decide_eq_true_eq]
          exact ⟨hd, hdx, Nat.mod_eq_zero_of_dvd hdvd⟩⟩
  · intro hp
    have h2 : ¬ x < 2 := by
      have := hp.two_le
      omega
    rw [if_neg h2]
    have hany : ¬ (List.range x).any
        (fun d => decide (2 ≤ d ∧ d * d ≤ x ∧ x % d = 0)) = true := by
      rw [List.any_eq_true]
      rintro ⟨d, hmem, hd⟩
      simp only [decide_eq_true_eq] at hd
      obtain ⟨hd2, _, hmod⟩ := hd
      have hdvd : d ∣ x := Nat.dvd_of_mod_eq_zero hmod
      have hlt := List.mem_range.mp hmem
      rcases (Nat.dvd_prime hp).mp hdvd with h1 | h1 <;> omega
    rw [if_neg hany]

theorem next_prime_loop_spec (fuel x p : Nat) (hp : Nat.Prime p) (hx : x ≤ p)
    (hfuel : p ≤ x + fuel) :
    Nat.Prime (next_prime_loop fuel x) ∧ next_prime_loop fuel x ≤ p := by
  induction fuel generalizing x with
  | zero =>
    have : x = p := by omega
    subst this
    exact ⟨hp, Nat.le_refl _⟩
  | succ n ih =>
    unfold next_prime_loop
    split
    · rename_i h1
      exact ⟨(is_prime_eq_one_iff x).mp h1, hx⟩
    · rename_i h1
      have hne : x ≠ p := by
        intro he
        subst he
        exact h1 ((is_prime_eq_one_iff x).mpr hp)
      exact ih (x + 1) (by omega) (by omega)

/-- The model of `next_prime` meets the spec: it returns the smallest prime
that is at least `x`. -/
theorem next_prime_spec (x : Int) : is_smallest_prime_ge (next_prime x) x := by
  have hex : ∃ p, Nat.Prime p ∧ x.toNat ≤ p ∧ p ≤ x.toNat + (x.toNat + 2) := by
    by_cases h0 : x.toNat = 0
    · exact ⟨2, Nat.prime_two, by omega, by omega⟩
    · obtain ⟨p, hp, h1, h2⟩ := Nat.exists_prime_lt_and_le_two_mul x.toNat h0
      exact ⟨p, hp, by omega, by omega⟩
  obtain ⟨p, hp, h1, h2⟩ := hex
  have hs := next_prime_loop_spec (x.toNat + 2) x.toNat p hp h1 h2
  have hge : x.toNat ≤ next_prime x := next_prime_loop_ge _ _
  refine ⟨hs.1, by omega, fun q hq hxq => ?_⟩
  by_cases hq2 : q ≤ x.toNat + (x.toNat + 2)
  · exact (next_prime_loop_spec (x.toNat + 2) x.toNat q hq (by omega) hq2).2
  · have := hs.2
    show next_prime_loop (x.toNat + 2) x.toNat ≤ q
    omega

/-- For ASCII keys of at most eight bytes, a base of at most 163 and a modulus
that fits in `int`, no value computed by the loop of `ht_hash` leaves the range
of `long`. -/
theorem ht_hash_intermediates_le (a m len_s : Nat) (rest : List Nat) (i hash : Nat)
    (ha : a ≤ 163) (hlen : len_s ≤ 8) (hm1 : 1 ≤ m) (hm : m ≤ 2 ^ 31)
    (hbytes : ∀ c, c ∈ rest → c ≤ 127) (hhash : hash ≤ 2 ^ 31) :
    ∀ x, x ∈ ht_hash_intermediates a m len_s rest i hash → x ≤ LONG_MAX := by
  induction rest generalizing i hash with
  | nil => simp [ht_hash_intermediates]
  | cons c rest ih =>
    have hc : c ≤ 127 := hbytes c (List.mem_cons_self _ _)
    have hpow : a ^ (len_s - (i + 1)) ≤ 163 ^ 7 :=
      Nat.le_trans (Nat.pow_le_pow_left ha _) (Nat.pow_le_pow_right (by decide) (by omega))
    have hterm : a ^ (len_s - (i + 1)) * c ≤ 163 ^ 7 * 127 := Nat.mul_le_mul hpow hc
    have hnext : (hash + a ^ (len_s - (i + 1)) * c) % m ≤ 2 ^ 31 :=
      Nat.le_trans (Nat.le_of_lt (Nat.mod_lt _ (by omega))) hm
    intro x hx
    simp only [ht_hash_intermediates, List.mem_cons] at hx
    have h7 : (163 : Nat) ^ 7 = 3057125241215467 := by norm_num
    have h31 : (2 : Nat) ^ 31 = 2147483648 := by norm_num
    have hL : LONG_MAX = 9223372036854775807 := by norm_num [LONG_MAX]
    rcases hx with hx | hx | hx | hx
    · omega
    · omega
    · omega
    · exact ih (i + 1) _ (fun c' hc' => hbytes c' (List.mem_cons_of_mem _ hc')) hnext x hx

theorem ht_hash_long_loop_eq (a m len_s : Nat) (rest : List Nat) (i hash : Nat)
    (ha : a ≤ 163) (hlen : len_s ≤ 8) (hm1 : 1 ≤ m) (hm : m ≤ 2 ^ 31)
    (hbytes : ∀ c, c ∈ rest → c ≤ 127) (hhash : hash ≤ 2 ^ 31) :
    ht_hash_long_loop a (m : Int) len_s rest i (hash : Int)
      = some ((ht_hash_loop a m len_s rest i hash : Nat) : Int) := by
  induction rest generalizing i hash with
  | nil => simp [ht_hash_long_loop, ht_hash_loop]
  | cons c rest ih =>
    have hc : c ≤ 127 := hbytes c (List.mem_cons_self _ _)
    have hpow : a ^ (len_s - (i + 1)) ≤ 163 ^ 7 :=
      Nat.le_trans (Nat.pow_le_pow_left ha _) (Nat.pow_le_pow_right (by decide) (by omega))
    have hterm : a ^ (len_s - (i + 1)) * c ≤ 163 ^ 7 * 127 := Nat.mul_le_mul hpow hc
    have h7 : (163 : Nat) ^ 7 = 3057125241215467 := by norm_num
    have h53 : (2 : Nat) ^ 53 = 9007199254740992 := by norm_num
    have h31 : (2 : Nat) ^ 31 = 2147483648 := by norm_num
    have hp : pow_to_long a (len_s - (i + 1)) = some ((a ^ (len_s - (i + 1)) : Nat) : Int) := by
      unfold pow_to_long
      rw [if_pos (by omega)]
    have hcv : char_value c = (c : Int) := by
      unfold char_value
      rw [if_pos (by omega)]
    have hnext : (hash + a ^ (len_s - (i + 1)) * c) % m ≤ 2 ^ 31 :=
      Nat.le_trans (Nat.le_of_lt (Nat.mod_lt _ (by omega))) hm
    simp only [ht_hash_long_loop, ht_hash_loop, hp, hcv]
    have hcast1 : ((a ^ (len_s - (i + 1)) : Nat) : Int) * (c : Int)
        = ((a ^ (len_s - (i + 1)) * c : Nat) : Int) := by push_cast; rfl
    have hcast2 : (hash : Int) + ((a ^ (len_s - (i + 1)) * c : Nat) : Int)
        = ((hash + a ^ (len_s - (i + 1)) * c : Nat) : Int) := by push_cast; rfl
    rw [hcast1, hcast2, ← Int.ofNat_tmod]
    have hfit : fits_long ((a ^ (len_s - (i + 1)) * c : Nat) : Int)
        ∧ fits_long ((hash + a ^ (len_s - (i + 1)) * c : Nat) : Int) ∧ (m : Int) ≠ 0 := by
      refine ⟨⟨by omega, by omega⟩, ⟨by omega, by omega⟩, by omega⟩
    rw [if_pos hfit]
    exact ih (i + 1) _ (fun c' hc' => hbytes c' (List.mem_cons_of_mem _ hc')) hnext

/-- For ASCII keys of at most eight bytes, a base of at most 163 and a positive
modulus in the range of `int`, the hash in the arithmetic of the C is the hash
in exact arithmetic. -/
theorem ht_hash_long_eq_ht_hash (s : CString) (a m : Nat) (ha : a ≤ 163) (hlen : s.length ≤ 8)
    (hm1 : 1 ≤ m) (hm : m ≤ 2 ^ 31) (hbytes : ∀ c, c ∈ s → c ≤ 127) :
    ht_hash_long s a (m : Int) = some ((ht_hash s a m : Nat) : Int) := by
  have h := ht_hash_long_loop_eq a m s.length s 0 0 ha hlen hm1 hm hbytes (by omega)
  simpa [ht_hash_long, ht_hash] using h

/-- For ASCII keys of at most eight bytes and a bucket count and attempt number
small enough for `int`, the probe index in the arithmetic of the C is the
probe index in exact arithmetic. -/
theorem ht_get_hash_int_eq_ht_get_hash (s : CString) (n attempt : Nat)
    (hlen : s.length ≤ 8) (hbytes : ∀ c, c ∈ s → c ≤ 127) (hn1 : 1 ≤ n)
    (hn : 2 * n ≤ 2 ^ 31 - 1) (hatt : attempt * n ≤ 2 ^ 31 - 1) :
    ht_get_hash_int s (n : Int) (attempt : Int) = some ((ht_get_hash s n attempt : Nat) : Int) := by
  have h31 : (2 : Nat) ^ 31 = 2147483648 := by norm_num
  have ha := ht_hash_long_eq_ht_hash s HT_PRIME_1 n (by decide) hlen hn1 (by omega) hbytes
  have hb := ht_hash_long_eq_ht_hash s HT_PRIME_2 n (by decide) hlen hn1 (by omega) hbytes
  have hla : ht_hash s HT_PRIME_1 n < n := ht_hash_lt _ _ _ hn1
  have hlb : ht_hash s HT_PRIME_2 n < n := ht_hash_lt _ _ _ hn1
  have hprod : attempt * (ht_hash s HT_PRIME_2 n + 1) ≤ attempt * n :=
    Nat.mul_le_mul_left _ (by omega)
  have hmod : (attempt * (ht_hash s HT_PRIME_2 n + 1)) % n < n := Nat.mod_lt _ (by omega)
  unfold ht_get_hash_int ht_get_hash
  simp only [ha, hb]
  have hc1 : ((ht_hash s HT_PRIME_2 n : Nat) : Int) + 1
      = ((ht_hash s HT_PRIME_2 n + 1 : Nat) : Int) := by push_cast; rfl
  have hc2 : (attempt : Int) * ((ht_hash s HT_PRIME_2 n + 1 : Nat) : Int)
      = ((attempt * (ht_hash s HT_PRIME_2 n + 1) : Nat) : Int) := by push_cast; rfl
  rw [hc1, hc2, ← Int.ofNat_tmod]
  have hfit : fits_int ((ht_hash s HT_PRIME_2 n + 1 : Nat) : Int)
      ∧ fits_int ((attempt * (ht_hash s HT_PRIME_2 n + 1) : Nat) : Int)
      ∧ fits_int (((ht_hash s HT_PRIME_1 n : Nat) : Int)
          + (((attempt * (ht_hash s HT_PRIME_2 n + 1)) % n : Nat) : Int)) := by
    refine ⟨⟨by omega, by omega⟩, ⟨by omega, by omega⟩, ⟨by omega, by omega⟩⟩
  rw [if_pos hfit]
  push_cast
  rfl

/-- The placement loop on a tombstone-free table, with the hash in exact
arithmetic: with at least one bucket and no tombstone it needs a single probe,
at index `ht_hash k 151 size`, which is inside the array; it stores `(k, v)`
there and leaves the other buckets alone, and the search finds `v` with a
single probe.  By `ht_get_hash_int_eq_ht_get_hash` this is the index the C
computes for ASCII keys of at most eight bytes. -/
theorem ht_insert_loop_tombstone_free (t : ht_hash_table) (k v : CString) (hsize : 1 ≤ t.size)
    (hwf : well_formed t) (hfree : ∀ s, s ∈ t.items → s ≠ Slot.deleted) :
    ht_get_hash k t.size 0 = ht_hash k HT_PRIME_1 t.size
    ∧ ht_hash k HT_PRIME_1 t.size < t.size
    ∧ ∃ t1, ht_insert_loop 1 t (ht_new_item k v) k 0 = Outcome.ok t1
      ∧ t1.items = t.items.set (ht_hash k HT_PRIME_1 t.size) (Slot.item (ht_new_item k v))
      ∧ t1.size = t.size
      ∧ ht_search 1 t1 k = Outcome.ok (some v) := by
  have h0 : ht_get_hash k t.size 0 = ht_hash k HT_PRIME_1 t.size := by
    simp [ht_get_hash]
  have hlt : ht_hash k HT_PRIME_1 t.size < t.size := ht_hash_lt _ _ _ hsize
  have hlen : ht_hash k HT_PRIME_1 t.size < t.items.length := by
    rw [hwf]
    exact hlt
  have hget : t.items[ht_hash k HT_PRIME_1 t.size]?
      = some (t.items.get ⟨ht_hash k HT_PRIME_1 t.size, hlen⟩) :=
    List.getElem?_eq_getElem hlen
  have hnd := hfree _ (List.get_mem t.items _ hlen)
  have hsearch : ∀ t1 : ht_hash_table, t1.size = t.size →
      t1.items = t.items.set (ht_hash k HT_PRIME_1 t.size) (Slot.item (ht_new_item k v)) →
      ht_search 1 t1 k = Outcome.ok (some v) := by
    intro t1 hs hi
    unfold ht_search ht_search_loop
    rw [hs, h0, hi, List.getElem?_set_self hlen]
    simp [ht_new_item]
  refine ⟨h0, hlt, ?_⟩
  unfold ht_insert_loop
  simp only [ht_new_item, h0] at hget ⊢
  rw [hget]
  cases hc : t.items.get ⟨ht_hash k HT_PRIME_1 t.size, hlen⟩ with
  | null => exact ⟨_, rfl, rfl, rfl, hsearch _ rfl rfl⟩
  | deleted => exact absurd hc hnd
  | item cur =>
    simp only [if_true]
    exact ⟨_, rfl, rfl, rfl, hsearch _ rfl rfl⟩

/-- The single-probe insert on the table of `main` with the new key `"dog"`. -/
theorem ht_insert_loop_tombstone_free_example :
    ht_get_hash key_dog demo_table.size 0 = ht_hash key_dog HT_PRIME_1 demo_table.size
    ∧ ht_hash key_dog HT_PRIME_1 demo_table.size < demo_table.size
    ∧ ∃ t1, ht_insert_loop 1 demo_table (ht_new_item key_dog val_1) key_dog 0 = Outcome.ok t1
      ∧ t1.items = demo_table.items.set (ht_hash key_dog HT_PRIME_1 demo_table.size)
          (Slot.item (ht_new_item key_dog val_1))
      ∧ t1.size = demo_table.size
      ∧ ht_search 1 t1 key_dog = Outcome.ok (some val_1) :=
  ht_insert_loop_tombstone_free demo_table key_dog val_1 (by decide)
    (show demo_table.items.length = demo_table.size by decide) (by decide)

/-! ## The claims -/

set_option maxRecDepth 100000

/-- C1 (round trip), evaluated where it fails: after `ht_insert("aa")` and
`ht_delete("aa")` the reachable table has a tombstone in bucket 10; then
`ht_insert("dy", "2")` passes the tombstone and reads `items[55]` in an array
of 53 buckets, so it never returns a table in which `"dy"` could be found. -/
theorem C1_insert_reads_past_the_array :
    (∀ fuel, run_calls (fuel + 2) [Call.insert key_aa val_1, Call.delete key_aa] ht_new
        = Outcome.ok (table_53 0 10 Slot.deleted))
    ∧ Reachable (table_53 0 10 Slot.deleted)
    ∧ ht_get_hash key_dy 53 0 = 10
    ∧ ht_get_hash key_dy 53 1 = 55
    ∧ (∀ fuel, ht_insert (fuel + 2) (table_53 0 10 Slot.deleted) key_dy val_2
        = Outcome.out_of_bounds)
    ∧ (∀ fuel t, ht_insert fuel (table_53 0 10 Slot.deleted) key_dy val_2 ≠ Outcome.ok t) := by
  have hrun : ∀ fuel, run_calls (fuel + 2) [Call.insert key_aa val_1, Call.delete key_aa] ht_new
      = Outcome.ok (table_53 0 10 Slot.deleted) := fun _ => rfl
  have hoob : ∀ fuel, ht_insert (fuel + 2) (table_53 0 10 Slot.deleted) key_dy val_2
      = Outcome.out_of_bounds := fun _ => rfl
  refine ⟨hrun, reachable_run_calls 2 _ _ _ Reachable.new (hrun 0), by decide, by decide,
    hoob, ?_⟩
  intro fuel t
  match fuel with
  | 0 =>
    intro h
    change Outcome.out_of_fuel = Outcome.ok t at h
    cases h
  | 1 =>
    intro h
    change Outcome.out_of_fuel = Outcome.ok t at h
    cases h
  | n + 2 =>
    rw [hoob n]
    simp

/-- C2 (insert does not disturb other keys), evaluated where it fails: `"A"`
and `"v"` both hash to bucket 12.  With `"A"` stored, `ht_insert("v", "2")`
overwrites the bucket although the stored key is `"A"`, and `ht_search("A")`
then returns `NULL`. -/
theorem C2_insert_overwrites_other_key :
    key_A ≠ key_v
    ∧ (∀ fuel, run_calls (fuel + 1) [Call.insert key_A val_1] ht_new
        = Outcome.ok (table_53 1 12 (Slot.item (ht_new_item key_A val_1))))
    ∧ Reachable (table_53 1 12 (Slot.item (ht_new_item key_A val_1)))
    ∧ (∀ fuel, ht_search (fuel + 1) (table_53 1 12 (Slot.item (ht_new_item key_A val_1))) key_A
        = Outcome.ok (some val_1))
    ∧ (∀ fuel, ht_insert (fuel + 1) (table_53 1 12 (Slot.item (ht_new_item key_A val_1)))
          key_v val_2
        = Outcome.ok (table_53 1 12 (Slot.item (ht_new_item key_v val_2))))
    ∧ (∀ fuel, ht_search (fuel + 2) (table_53 1 12 (Slot.item (ht_new_item key_v val_2))) key_A
        = Outcome.ok none) := by
  have hrun : ∀ fuel, run_calls (fuel + 1) [Call.insert key_A val_1] ht_new
      = Outcome.ok (table_53 1 12 (Slot.item (ht_new_item key_A val_1))) := fun _ => rfl
  exact ⟨by decide, hrun, reachable_run_calls 1 _ _ _ Reachable.new (hrun 0),
    fun _ => rfl, fun _ => rfl, fun _ => rfl⟩

/-- C3 (overwrite), evaluated where it fails: after `ht_insert("ab")` and
`ht_delete("ab")` bucket 11 is a tombstone.  The first call
`ht_insert("dz", "1")` of the overwrite sequence passes the tombstone and
reads `items[57]` in an array of 53 buckets: it does not return, so neither
the second insert nor the search is reached. -/
theorem C3_first_insert_reads_past_the_array :
    (∀ fuel, run_calls (fuel + 2) [Call.insert key_ab val_1, Call.delete key_ab] ht_new
        = Outcome.ok (table_53 0 11 Slot.deleted))
    ∧ Reachable (table_53 0 11 Slot.deleted)
    ∧ ht_get_hash key_dz 53 0 = 11
    ∧ ht_get_hash key_dz 53 1 = 57
    ∧ (∀ fuel, ht_insert (fuel + 2) (table_53 0 11 Slot.deleted) key_dz val_1
        = Outcome.out_of_bounds)
    ∧ (∀ fuel, run_calls (fuel + 2)
        [Call.insert key_dz val_1, Call.insert key_dz val_2] (table_53 0 11 Slot.deleted)
        = Outcome.out_of_bounds) := by
  have hrun : ∀ fuel, run_calls (fuel + 2) [Call.insert key_ab val_1, Call.delete key_ab] ht_new
      = Outcome.ok (table_53 0 11 Slot.deleted) := fun _ => rfl
  exact ⟨hrun, reachable_run_calls 2 _ _ _ Reachable.new (hrun 0), by decide, by decide,
    fun _ => rfl, fun _ => rfl⟩

/-- C4 (deletion), evaluated where it fails: from `ht_new()`,
`ht_insert("dog", "1")` stores the item in bucket 50; `ht_delete("dog")`
tombstones it, goes on probing and reads `items[78]` in an array of 53
buckets: the call does not complete. -/
theorem C4_delete_reads_past_the_array :
    (∀ fuel, run_calls (fuel + 1) [Call.insert key_dog val_1] ht_new
        = Outcome.ok (table_53 1 50 (Slot.item (ht_new_item key_dog val_1))))
    ∧ ht_get_hash key_dog 53 0 = 50
    ∧ ht_get_hash key_dog 53 1 = 78
    ∧ (∀ fuel, ht_delete (fuel + 2) (table_53 1 50 (Slot.item (ht_new_item key_dog val_1)))
          key_dog = Outcome.out_of_bounds)
    ∧ (∀ fuel t, ht_delete fuel (table_53 1 50 (Slot.item (ht_new_item key_dog val_1)))
          key_dog ≠ Outcome.ok t) := by
  have hoob : ∀ fuel, ht_delete (fuel + 2)
      (table_53 1 50 (Slot.item (ht_new_item key_dog val_1))) key_dog
      = Outcome.out_of_bounds := fun _ => rfl
  refine ⟨fun _ => rfl, by decide, by decide, hoob, ?_⟩
  intro fuel t
  match fuel with
  | 0 =>
    intro h
    change Outcome.out_of_fuel = Outcome.ok t at h
    cases h
  | 1 =>
    intro h
    change Outcome.out_of_fuel = Outcome.ok t at h
    cases h
  | n + 2 =>
    rw [hoob n]
    simp

/-- C5 (scenario of `main`), evaluated: the three inserts and the three
searches behave as stated, but `ht_delete("age")` tombstones bucket 26 and then
reads `items[78]`, outside the 53 buckets; it does not complete, so the two
searches after it are never reached. -/
theorem C5_demo_delete_reads_past_the_array :
    (∀ fuel, run_calls (fuel + 1) [Call.insert key_name val_John, Call.insert key_age val_30,
        Call.insert key_city val_New_York] ht_new = Outcome.ok demo_table)
    ∧ (∀ fuel, ht_search (fuel + 1) demo_table key_name = Outcome.ok (some val_John))
    ∧ (∀ fuel, ht_search (fuel + 1) demo_table key_age = Outcome.ok (some val_30))
    ∧ (∀ fuel, ht_search (fuel + 1) demo_table key_city = Outcome.ok (some val_New_York))
    ∧ demo_table.size = 53
    ∧ demo_table.items.length = 53
    ∧ ht_get_hash key_age demo_table.size 0 = 26
    ∧ ht_get_hash key_age demo_table.size 1 = 78
    ∧ (∀ fuel, ht_delete (fuel + 2) demo_table key_age = Outcome.out_of_bounds)
    ∧ (∀ fuel t, ht_delete fuel demo_table key_age ≠ Outcome.ok t) := by
  have hoob : ∀ fuel, ht_delete (fuel + 2) demo_table key_age = Outcome.out_of_bounds :=
    fun _ => rfl
  refine ⟨fun _ => rfl, fun _ => rfl, fun _ => rfl, fun _ => rfl, by decide, by decide,
    by decide, by decide, hoob, ?_⟩
  intro fuel t
  match fuel with
  | 0 =>
    intro h
    change Outcome.out_of_fuel = Outcome.ok t at h
    cases h
  | 1 =>
    intro h
    change Outcome.out_of_fuel = Outcome.ok t at h
    cases h
  | n + 2 =>
    rw [hoob n]
    simp

/-- C6 (bounded probing), evaluated where it fails.  For `"i"` and `"4"`
`hash_a = 52` and the step `hash_b + 1` is 53, so every probe index is 52.
In the reachable table that holds only `"i"` (count 1 < size 53),
`ht_delete("i")` tombstones bucket 52 and then reads that tombstone at every
further attempt, and `ht_search("4")` reads the item `"i"` at every attempt:
neither loop stops, whatever the number of attempts, in particular not
within 53.  The same happens to `ht_insert("vn")` on the reachable table whose
bucket 14 is a tombstone.  (In C the product `attempt * 53` leaves the range
of `int` after about `4 * 10^7` attempts, which is undefined behaviour.) -/
theorem C6_probe_loops_never_stop :
    ((∀ fuel, run_calls (fuel + 1) [Call.insert key_i val_1] ht_new
        = Outcome.ok (table_53 1 52 (Slot.item (ht_new_item key_i val_1))))
      ∧ Reachable (table_53 1 52 (Slot.item (ht_new_item key_i val_1)))
      ∧ (table_53 1 52 (Slot.item (ht_new_item key_i val_1))).count
          < (table_53 1 52 (Slot.item (ht_new_item key_i val_1))).size
      ∧ (∀ attempt, ht_get_hash key_i 53 attempt = 52)
      ∧ (∀ attempt, ht_get_hash key_4 53 attempt = 52)
      ∧ (∀ fuel, ht_delete fuel (table_53 1 52 (Slot.item (ht_new_item key_i val_1))) key_i
          = Outcome.out_of_fuel)
      ∧ (∀ fuel, ht_search fuel (table_53 1 52 (Slot.item (ht_new_item key_i val_1))) key_4
          = Outcome.out_of_fuel))
    ∧ ((∀ fuel, run_calls (fuel + 2) [Call.insert key_ae val_1, Call.delete key_ae] ht_new
        = Outcome.ok (table_53 0 14 Slot.deleted))
      ∧ Reachable (table_53 0 14 Slot.deleted)
      ∧ (table_53 0 14 Slot.deleted).count < (table_53 0 14 Slot.deleted).size
      ∧ (∀ attempt, ht_get_hash key_vn 53 attempt = 14)
      ∧ (∀ fuel, ht_insert fuel (table_53 0 14 Slot.deleted) key_vn val_2
          = Outcome.out_of_fuel)) := by
  have hrun1 : ∀ fuel, run_calls (fuel + 1) [Call.insert key_i val_1] ht_new
      = Outcome.ok (table_53 1 52 (Slot.item (ht_new_item key_i val_1))) := fun _ => rfl
  have hrun2 : ∀ fuel, run_calls (fuel + 2) [Call.insert key_ae val_1, Call.delete key_ae]
      ht_new = Outcome.ok (table_53 0 14 Slot.deleted) := fun _ => rfl
  refine ⟨⟨hrun1, reachable_run_calls 1 _ _ _ Reachable.new (hrun1 0), by decide,
      fun attempt => ht_get_hash_stall key_i 53 attempt (by decide),
      fun attempt => ht_get_hash_stall key_4 53 attempt (by decide), ?_, ?_⟩,
    hrun2, reachable_run_calls 2 _ _ _ Reachable.new (hrun2 0), by decide,
      fun attempt => ht_get_hash_stall key_vn 53 attempt (by decide), ?_⟩
  · intro fuel
    cases fuel with
    | zero => rfl
    | succ n =>
      have h : ht_delete (n + 1) (table_53 1 52 (Slot.item (ht_new_item key_i val_1))) key_i
          = (match ht_delete_loop n (table_53 1 52 Slot.deleted) key_i 1 with
            | Outcome.ok ht2 => Outcome.ok { ht2 with count := ht2.count - 1 }
            | Outcome.out_of_bounds => Outcome.out_of_bounds
            | Outcome.out_of_fuel => Outcome.out_of_fuel) := rfl
      rw [h, ht_delete_loop_stall n _ key_i 1 (by decide) (by decide)]
  · intro fuel
    exact ht_search_loop_stall fuel _ key_4 0 (by decide)
      (Or.inr ⟨ht_new_item key_i val_1, by decide, by decide⟩)
  · intro fuel
    cases fuel with
    | zero => rfl
    | succ n =>
      have h : ht_insert (n + 1) (table_53 0 14 Slot.deleted) key_vn val_2
          = ht_insert_loop (n + 1) (table_53 0 14 Slot.deleted) (ht_new_item key_vn val_2)
            key_vn 0 := rfl
      rw [h]
      exact ht_insert_loop_stall _ _ _ _ 0 (by decide) (by decide)

/-- C7 (tombstone transparency), evaluated where it fails: `"ac"` and `"hf"`
both start probing at bucket 12.  From `ht_new()`, after `ht_insert("ac")` and
`ht_delete("ac")`, the call `ht_insert("hf", "2")` passes the tombstone and reads
`items[54]`, outside the 53 buckets; the sequence does not complete. -/
theorem C7_insert_past_tombstone_out_of_bounds :
    key_ac ≠ key_hf
    ∧ ht_get_hash key_ac 53 0 = 12
    ∧ ht_get_hash key_hf 53 0 = 12
    ∧ ht_get_hash key_hf 53 1 = 54
    ∧ (∀ fuel, run_calls (fuel + 2) [Call.insert key_ac val_1, Call.delete key_ac] ht_new
        = Outcome.ok (table_53 0 12 Slot.deleted))
    ∧ (∀ fuel, run_calls (fuel + 2)
        [Call.insert key_ac val_1, Call.delete key_ac, Call.insert key_hf val_2] ht_new
        = Outcome.out_of_bounds) := by
  exact ⟨by decide, by decide, by decide, by decide, fun _ => rfl, fun _ => rfl⟩

/-- C8 (growth trigger), evaluated where it fails: after inserting the 76
one-byte keys `"!"` ... `"l"` the reachable table has 107 buckets and load
`76 * 100 / 107 = 71 > 70`.  `ht_insert("m", "1")` then calls
`ht_resize(ht, 53 * 2)`, because `base_size` is still 53, and the table has
107 buckets again: its size has not grown. -/
theorem C8_second_growth_keeps_size :
    (∀ fuel, run_calls (fuel + 2) (insert_bytes 33 76) ht_new
        = Outcome.ok (table_107 76 76 false))
    ∧ Reachable (table_107 76 76 false)
    ∧ (table_107 76 76 false).size = 107
    ∧ Int.tdiv ((table_107 76 76 false).count * 100) (table_107 76 76 false).size = 71
    ∧ (table_107 76 76 false).base_size * 2 = 106
    ∧ (∀ fuel, ht_insert (fuel + 2) (table_107 76 76 false) key_m val_1
        = Outcome.ok (table_107 77 76 true))
    ∧ (table_107 77 76 true).size = 107 := by
  have hrun : ∀ fuel, run_calls (fuel + 2) (insert_bytes 33 76) ht_new
      = Outcome.ok (table_107 76 76 false) := fun _ => rfl
  exact ⟨hrun, reachable_run_calls 2 _ _ _ Reachable.new (hrun 0), by decide, by decide,
    by decide, fun _ => rfl, by decide⟩

/-- C9 (shrink trigger), evaluated where it fails: 39 inserts grow the table
to 107 buckets; 29 calls `ht_delete("~")` bring `count` to 10, so the load is
`10 * 100 / 107 = 9 < 10`.  The next `ht_delete` asks `ht_resize` for base
`53 / 2 = 26`, which is below 53 and ignored: the table keeps its 107 buckets. -/
theorem C9_delete_keeps_size :
    (∀ fuel, run_calls (fuel + 2)
        (insert_bytes 33 39 ++ List.replicate 29 (Call.delete key_tilde)) ht_new
        = Outcome.ok (table_107 10 39 false))
    ∧ Reachable (table_107 10 39 false)
    ∧ (table_107 10 39 false).size = 107
    ∧ Int.tdiv ((table_107 10 39 false).count * 100) (table_107 10 39 false).size = 9
    ∧ Int.tdiv (table_107 10 39 false).base_size 2 = 26
    ∧ (∀ fuel, ht_delete (fuel + 1) (table_107 10 39 false) key_tilde
        = Outcome.ok (table_107 9 39 false))
    ∧ (table_107 9 39 false).size = 107 := by
  have hrun : ∀ fuel, run_calls (fuel + 2)
      (insert_bytes 33 39 ++ List.replicate 29 (Call.delete key_tilde)) ht_new
      = Outcome.ok (table_107 10 39 false) := fun _ => rfl
  exact ⟨hrun, reachable_run_calls 2 _ _ _ Reachable.new (hrun 0), by decide, by decide,
    by decide, fun _ => rfl, by decide⟩

/-- C10 (capacity floor): `ht_resize` with a requested base below 53 returns
the table unchanged, and every table reachable from `ht_new()` by
`ht_insert`/`ht_delete` calls has at least 53 buckets. -/
theorem C10_capacity_floor :
    (∀ (fuel : Nat) (t : ht_hash_table) (new_base : Int),
        new_base < 53 → ht_resize fuel t new_base = Outcome.ok t)
    ∧ (∀ t : ht_hash_table, Reachable t → 53 ≤ t.size) := by
  refine ⟨?_, reachable_size_ge⟩
  intro fuel t new_base h
  have h1 : new_base < HT_INITIAL_BASE_SIZE := h
  simp [ht_resize, ht_resize_with, h1]

/-- C10 at a concrete input: a resize of the table of `main` to base 26 is
ignored, and that table has at least 53 buckets. -/
theorem C10_capacity_floor_witness :
    ht_resize 1 demo_table 26 = Outcome.ok demo_table ∧ 53 ≤ demo_table.size :=
  ⟨C10_capacity_floor.1 1 demo_table 26 (by decide),
   C10_capacity_floor.2 demo_table
     (reachable_run_calls 1 [Call.insert key_name val_John, Call.insert key_age val_30,
        Call.insert key_city val_New_York] ht_new demo_table Reachable.new (by decide))⟩

/-- C11 (count invariant), evaluated where it fails.  From `ht_new()`,
`ht_delete("~")` finds `NULL` in bucket 20 at once and still decrements:
`count` is -1 with no live bucket.  And after 36 one-byte keys, `"ag"`, `"cz"`
and `"m"`, the growth to 107 buckets has put `"ag"` and `"cz"` into the same
bucket while `ht_resize` kept the old `count`: `count` is 39 with 38 live
buckets. -/
theorem C11_count_differs_from_occupied :
    (∀ fuel, ht_delete (fuel + 1) ht_new key_tilde
        = Outcome.ok { ht_new with count := -1 })
    ∧ Reachable { ht_new with count := -1 }
    ∧ occupied ({ ht_new with count := -1 } : ht_hash_table).items = 0
    ∧ (∀ fuel, run_calls (fuel + 2)
        (insert_bytes 33 36 ++ [Call.insert key_ag val_1, Call.insert key_cz val_1,
          Call.insert key_m val_1]) ht_new = Outcome.ok merged_table)
    ∧ Reachable merged_table
    ∧ merged_table.count = 39
    ∧ occupied merged_table.items = 38 := by
  have h1 : ∀ fuel, ht_delete (fuel + 1) ht_new key_tilde
      = Outcome.ok { ht_new with count := -1 } := fun _ => rfl
  have h2 : ∀ fuel, run_calls (fuel + 2)
      (insert_bytes 33 36 ++ [Call.insert key_ag val_1, Call.insert key_cz val_1,
        Call.insert key_m val_1]) ht_new = Outcome.ok merged_table := fun _ => rfl
  exact ⟨h1, Reachable.delete 1 key_tilde Reachable.new (h1 0), by decide, h2,
    reachable_run_calls 2 _ _ _ Reachable.new (h2 0), by decide, by decide⟩

/-- C12 (size invariant), evaluated where it fails: after 39 inserts the
reachable table has `base_size = 53`, not the doubled 106, and `size = 107`,
while the smallest prime that is at least 53 is 53. -/
theorem C12_size_not_smallest_prime :
    (∀ fuel, run_calls (fuel + 2) (insert_bytes 33 39) ht_new
        = Outcome.ok (table_107 39 39 false))
    ∧ Reachable (table_107 39 39 false)
    ∧ (table_107 39 39 false).base_size = 53
    ∧ (table_107 39 39 false).size = 107
    ∧ is_smallest_prime_ge 53 53
    ∧ ¬ is_smallest_prime_ge (table_107 39 39 false).size (table_107 39 39 false).base_size := by
  have h : ∀ fuel, run_calls (fuel + 2) (insert_bytes 33 39) ht_new
      = Outcome.ok (table_107 39 39 false) := fun _ => rfl
  have hp : Nat.Prime 53 := by norm_num
  refine ⟨h, reachable_run_calls 2 _ _ _ Reachable.new (h 0), by decide, by decide,
    ⟨hp, by decide, fun q _ hq => by omega⟩, ?_⟩
  intro hs
  have h107 := hs.2.2 53 hp (by decide)
  have : (table_107 39 39 false).size = 107 := by decide
  omega

/-- C13 (reachability invariant): in every table reachable from `ht_new()`, a
live bucket `idx` holding `(k, v)` is the bucket of some attempt `a` of the
probe sequence of `k`, all earlier attempts meet tombstones (no `NULL`), and
`ht_search(t, k)` returns `v` with any fuel above `a`. -/
theorem C13_occupied_slots_are_found (t : ht_hash_table) (h : Reachable t) (idx : Nat)
    (k v : CString) (hslot : t.items[idx]? = some (Slot.item (ht_new_item k v))) :
    ∃ a, ht_get_hash k t.size a = idx
      ∧ (∀ a', a' < a → t.items[ht_get_hash k t.size a']? = some Slot.deleted)
      ∧ ∀ fuel, ht_search (a + 1 + fuel) t k = Outcome.ok (some v) := by
  obtain ⟨a, ha, hp⟩ := reachable_probe_invariant t h idx (ht_new_item k v) hslot
  refine ⟨a, ha, hp, fun fuel => ?_⟩
  have hp0 : ∀ a', 0 ≤ a' → a' < 0 + a →
      t.items[ht_get_hash k t.size a']? = some Slot.deleted :=
    fun a' _ h2 => hp a' (by omega)
  have hs0 : t.items[ht_get_hash k t.size (0 + a)]? = some (Slot.item (ht_new_item k v)) := by
    rw [Nat.zero_add]
    exact ha ▸ hslot
  exact ht_search_loop_finds a t k (ht_new_item k v) 0 rfl hp0 hs0 fuel

/-- C13 on the table of `main`: bucket 26 holds `("age", "30")`. -/
theorem C13_occupied_slots_are_found_witness :
    ∃ a, ht_get_hash key_age demo_table.size a = 26
      ∧ (∀ a', a' < a → demo_table.items[ht_get_hash key_age demo_table.size a']?
          = some Slot.deleted)
      ∧ ∀ fuel, ht_search (a + 1 + fuel) demo_table key_age = Outcome.ok (some val_30) :=
  C13_occupied_slots_are_found demo_table
    (reachable_run_calls 1 [Call.insert key_name val_John, Call.insert key_age val_30,
      Call.insert key_city val_New_York] ht_new demo_table Reachable.new (by decide))
    26 key_age val_30 (by decide)

/-- C14 (probe formula), evaluated where it fails: for `"age"`, 53 buckets and
attempt 1, `hash_a = 26` and `hash_b = 51`; `ht_get_hash` returns
`26 + (1 * 52) % 53 = 78`, the formula of the claim gives
`(26 + 1 * 52) % 53 = 25`, and 78 is not below 53. -/
theorem C14_probe_index_not_reduced :
    ht_hash key_age HT_PRIME_1 53 = 26
    ∧ ht_hash key_age HT_PRIME_2 53 = 51
    ∧ ht_get_hash key_age 53 1 = 78
    ∧ probe_reference key_age 53 1 = 25
    ∧ ¬ ht_get_hash key_age 53 1 < 53 := by
  decide

/-- C15 (probe coverage), evaluated where it fails: 53 is prime, and for the
key `"i"` the step `hash_b + 1 = 53` is zero modulo 53; every attempt yields
index 52, so index 0 (like every index but 52) is never visited. -/
theorem C15_probe_step_zero :
    Nat.Prime 53
    ∧ (ht_hash key_i HT_PRIME_2 53 + 1) % 53 = 0
    ∧ (∀ attempt, ht_get_hash key_i 53 attempt = 52)
    ∧ (∀ attempt, ht_get_hash key_i 53 attempt ≠ 0) := by
  have h : ∀ attempt, ht_get_hash key_i 53 attempt = 52 :=
    fun attempt => ht_get_hash_stall key_i 53 attempt (by decide)
  refine ⟨by norm_num, by decide, h, fun attempt => ?_⟩
  rw [h attempt]
  decide

/-- C16 (hash reference definition): for every key, base and modulus
`m ≥ 1`, `ht_hash(s, a, m)` in exact arithmetic is the positional value
`Σ s[i] * a^(len-1-i)` modulo `m`, and it is below `m`. -/
theorem C16_hash_reference (s : CString) (a m : Nat) (hm : 1 ≤ m) :
    ht_hash s a m = hash_reference s a m ∧ ht_hash s a m < m := by
  have hlt := ht_hash_lt s a m hm
  refine ⟨?_, hlt⟩
  rw [← ht_hash_eq_reference, Nat.mod_eq_of_lt hlt]

/-- C16 on the key `"age"` with base 151 and modulus 53. -/
theorem C16_hash_reference_witness :
    ht_hash key_age 151 53 = hash_reference key_age 151 53 ∧ ht_hash key_age 151 53 < 53 :=
  C16_hash_reference key_age 151 53 (by decide)

/-- C17, the claim as stated fails: in the reachable table whose bucket 10 is
a tombstone, the key `"aa"` is not stored and the first bucket of its probe
sequence that is `NULL` or a tombstone is bucket 10 (attempt 0); yet
`ht_insert("aa", "2")` leaves the tombstone in place and stores the item in
bucket 19 (attempt 1). -/
theorem C17_tombstone_is_not_reused :
    Reachable (table_53 0 10 Slot.deleted)
    ∧ (table_53 0 10 Slot.deleted).items.countP (holds_key key_aa) = 0
    ∧ ht_get_hash key_aa 53 0 = 10
    ∧ ht_get_hash key_aa 53 1 = 19
    ∧ (table_53 0 10 Slot.deleted).items[10]? = some Slot.deleted
    ∧ (∀ fuel, ht_insert (fuel + 2) (table_53 0 10 Slot.deleted) key_aa val_2
        = Outcome.ok table_aa_again)
    ∧ table_aa_again.items[10]? = some Slot.deleted
    ∧ table_aa_again.items[19]? = some (Slot.item (ht_new_item key_aa val_2)) := by
  have hrun : run_calls 2 [Call.insert key_aa val_1, Call.delete key_aa] ht_new
      = Outcome.ok (table_53 0 10 Slot.deleted) := rfl
  exact ⟨reachable_run_calls 2 _ _ _ Reachable.new hrun, by decide, by decide, by decide,
    by decide, fun _ => rfl, by decide, by decide⟩

/-- C17 as amended: let `t0` be the table after the grow check of
`ht_insert(t, k, v)`.  If the buckets of the attempts `0, ..., a - 1` of the
probe sequence of `k` are tombstones and the bucket of attempt `a` is `NULL`,
then `ht_insert` returns, the item is stored in that `NULL` bucket, every other
bucket (the tombstones included) is unchanged, and `count` has grown by
exactly one. -/
theorem C17_insert_fills_first_null (fuel a : Nat) (t t0 : ht_hash_table) (k v : CString)
    (hgrow : (if Int.tdiv (t.count * 100) t.size > 70 then ht_resize_up (a + fuel) t
              else Outcome.ok t) = Outcome.ok t0)
    (hpath : ∀ a', a' < a → t0.items[ht_get_hash k t0.size a']? = some Slot.deleted)
    (hslot : t0.items[ht_get_hash k t0.size a]? = some Slot.null) :
    ht_insert (a + 1 + fuel) t k v
      = Outcome.ok { t0 with
          items := t0.items.set (ht_get_hash k t0.size a) (Slot.item (ht_new_item k v))
          count := t.count + 1 } := by
  have hcount : t0.count = t.count := by
    split at hgrow
    · exact ht_resize_with_count _ _ _ _ hgrow
    · cases hgrow; rfl
  have h1 : a + 1 + fuel = (a + fuel) + 1 := by omega
  rw [h1, ht_insert_succ, hgrow]
  simp only
  rw [← h1, ← hcount]
  have h2 := ht_insert_loop_fills_null a t0 (ht_new_item k v) k 0 rfl
    (fun a' _ h3 => hpath a' (by omega)) (by rw [Nat.zero_add]; exact hslot) fuel
  rw [Nat.zero_add] at h2
  exact h2

/-- C17 as amended, on the table whose bucket 10 is a tombstone: `"aa"` goes
to bucket 19, the `NULL` bucket of attempt 1. -/
theorem C17_insert_fills_first_null_witness :
    ht_insert (1 + 1 + 0) (table_53 0 10 Slot.deleted) key_aa val_2
      = Outcome.ok { table_53 0 10 Slot.deleted with
          items := (table_53 0 10 Slot.deleted).items.set
            (ht_get_hash key_aa (table_53 0 10 Slot.deleted).size 1)
            (Slot.item (ht_new_item key_aa val_2))
          count := (table_53 0 10 Slot.deleted).count + 1 } :=
  C17_insert_fills_first_null 0 1 (table_53 0 10 Slot.deleted) (table_53 0 10 Slot.deleted)
    key_aa val_2 (by decide) (by decide) (by decide)

/-- C18 (key uniqueness): in every table reachable from `ht_new()`, two live
buckets with the same key are the same bucket, so at most one bucket passes
the key test of `ht_delete`. -/
theorem C18_key_uniqueness (t : ht_hash_table) (h : Reachable t) :
    (∀ (i j : Nat) (it1 it2 : ht_item), t.items[i]? = some (Slot.item it1) →
        t.items[j]? = some (Slot.item it2) → it1.key = it2.key → i = j)
    ∧ ∀ k : CString, t.items.countP (holds_key k) ≤ 1 := by
  have hu := probe_invariant_unique t (reachable_probe_invariant t h)
  refine ⟨hu, fun k => countP_le_one_of_unique _ _ ?_⟩
  intro i j x y hx hy px py
  cases x with
  | null => simp [holds_key] at px
  | deleted => simp [holds_key] at px
  | item it1 =>
    cases y with
    | null => simp [holds_key] at py
    | deleted => simp [holds_key] at py
    | item it2 =>
      simp only [holds_key, decide_eq_true_eq] at px py
      exact hu i j it1 it2 hx hy (px.trans py.symm)

/-- C18 on the table of `main`. -/
theorem C18_key_uniqueness_witness :
    (∀ (i j : Nat) (it1 it2 : ht_item), demo_table.items[i]? = some (Slot.item it1) →
        demo_table.items[j]? = some (Slot.item it2) → it1.key = it2.key → i = j)
    ∧ ∀ k : CString, demo_table.items.countP (holds_key k) ≤ 1 :=
  C18_key_uniqueness demo_table
    (reachable_run_calls 1 [Call.insert key_name val_John, Call.insert key_age val_30,
      Call.insert key_city val_New_York] ht_new demo_table Reachable.new (by decide))

/-- C19 (no overflow in hashing), evaluated where it fails: for the nine-byte
key `"aaaaaaaaa"` and base 151 the loop computes the term `151^8 * 97`, and
for the ten-byte key `"aaaaaaaaaa"` the power `151^9`; both exceed the largest
`long`, `2^63 - 1`. -/
theorem C19_hash_overflows_long :
    (151 ^ 8 * 97 ∈ ht_hash_intermediates HT_PRIME_1 53 key_a9.length key_a9 0 0
      ∧ LONG_MAX < 151 ^ 8 * 97)
    ∧ (151 ^ 9 ∈ ht_hash_intermediates HT_PRIME_1 53 key_a10.length key_a10 0 0
      ∧ LONG_MAX < 151 ^ 9) := by
  decide

/-- C20 (insert on a tombstone-free table), evaluated where it fails.  The new
table has 53 buckets, all `NULL`, and load 0, so `ht_insert` does not rebuild it
and reads `items[ht_get_hash(key, 53, 0)]` first.  For the one-byte key
`"\xe9"` the byte is -23 as a signed `char`: `ht_hash` returns -23 and the first
probe index is -23, below 0.  For the ten-byte key `"aaaaaaaaaa"` the hash is
not defined at all: `pow(151, 9)` exceeds the largest `long`. -/
theorem C20_first_probe_index_outside_the_array :
    (1 ≤ ht_new.size ∧ well_formed ht_new ∧ (∀ s, s ∈ ht_new.items → s ≠ Slot.deleted)
      ∧ ht_new.size = 53 ∧ Int.tdiv (ht_new.count * 100) ht_new.size = 0)
    ∧ (key_e9 ≠ [] ∧ char_value 233 = -23
      ∧ ht_hash_long key_e9 HT_PRIME_1 53 = some (-23)
      ∧ ht_hash_long key_e9 HT_PRIME_2 53 = some (-23)
      ∧ ht_get_hash_int key_e9 53 0 = some (-23))
    ∧ (key_a10 ≠ [] ∧ LONG_MAX < 151 ^ 9
      ∧ pow_to_long 151 9 = none
      ∧ ht_hash_long key_a10 HT_PRIME_1 53 = none
      ∧ ht_get_hash_int key_a10 53 0 = none) := by
  refine ⟨⟨by decide, ht_new_sized_well_formed _, by decide, by decide, by decide⟩,
    ⟨by decide, by decide, by decide, by decide, by decide⟩,
    ⟨by decide, by decide, by decide, by decide, by decide⟩⟩

end CHashTable
